import Mathlib

/-!
Verification of the Grid Placement Engine of the wordsearch creator
(`src/assets/app.js`, function `generateWordsearch` and its helpers).

The JavaScript engine is shallowly embedded:
* a word is a `List Char` (a JS string of its letters);
* the size×size grid of letters-or-null is a total function
  `ℤ → ℤ → Option Char`, read as `grid y x` exactly like the source's
  `grid[yy][xx]`; the source only ever writes in-bounds cells, and reads
  are guarded by the same bounds checks the source performs;
* the solution mask and owner map are functions `ℤ → ℤ → Bool` and
  `ℤ → ℤ → Option ℕ` with the same indexing;
* `Math.random()` is modelled by an adversarially quantified stream
  `rand : ℕ → ℕ` of draws, consumed at an explicit cursor `k` in the
  exact order the source calls `randInt`; `randInt` maps a draw onto the
  set of values `Math.floor(Math.random() * n)` can produce (all of
  `[0, n)` for `n > 0`, and all of `[n, 0]` for `n ≤ 0`, which arises
  when the caller violates the precondition and `xMax < xMin`).
Theorems quantified over `rand` therefore cover every possible random
sequence of the source program.
-/

namespace Wordsearch

/-- JS `randInt(n) = Math.floor(Math.random() * n)`, with the draw made
explicit: `r` ranges over all naturals, and the result ranges over
exactly the values the JS expression can produce for that `n`. -/
def randInt (r : ℕ) (n : ℤ) : ℤ :=
  if 0 < n then (r : ℤ) % n else -((r : ℤ) % (1 - n))

/-- JS `choice(arr) = arr[randInt(arr.length)]` (the list is never empty
at any call site; `dflt` is unreachable there). -/
def choice (r : ℕ) (arr : List α) (dflt : α) : α :=
  arr.getD (randInt r (arr.length : ℤ)).toNat dflt

/-- A committed placement: the word together with the ordered cells it
occupies, as pushed by `doPlace` (`cells.push([xx, yy])`). -/
structure Placement where
  word : List Char
  cells : List (ℤ × ℤ)
deriving DecidableEq

/-- The mutable state of the `generateWordsearch` closure: the letter
grid, the solution mask `mark`, the owner map, and the two output
lists. -/
structure GenState where
  grid : ℤ → ℤ → Option Char
  mark : ℤ → ℤ → Bool
  owner : ℤ → ℤ → Option ℕ
  placements : List Placement
  failed : List (List Char)

/-- The record `{ grid, mark, placements, failed }` returned by
`generateWordsearch`. -/
structure GenResult where
  grid : ℤ → ℤ → Option Char
  mark : ℤ → ℤ → Bool
  placements : List Placement
  failed : List (List Char)

/-- `grid[y][x] = c` as a function update. -/
def writeCell (g : ℤ → ℤ → Option Char) (x y : ℤ) (c : Char) : ℤ → ℤ → Option Char :=
  fun y' x' => if y' = y ∧ x' = x then some c else g y' x'

/-- `mark[y][x] = true` as a function update. -/
def writeMark (m : ℤ → ℤ → Bool) (x y : ℤ) : ℤ → ℤ → Bool :=
  fun y' x' => if y' = y ∧ x' = x then true else m y' x'

/-- `owner[y][x] = wi` as a function update. -/
def writeOwner (o : ℤ → ℤ → Option ℕ) (x y : ℤ) (wi : ℕ) : ℤ → ℤ → Option ℕ :=
  fun y' x' => if y' = y ∧ x' = x then some wi else o y' x'

/-- The four orthogonal directions, in the order the source lists them. -/
def baseDirs : List (ℤ × ℤ) := [(1, 0), (-1, 0), (0, 1), (0, -1)]

/-- The four diagonal directions pushed when `allowDiagonals` is set. -/
def diagDirs : List (ℤ × ℤ) := [(1, 1), (-1, -1), (1, -1), (-1, 1)]

/-- The active direction set `dirs` of a run. -/
def dirsFor (allowDiagonals : Bool) : List (ℤ × ℤ) :=
  if allowDiagonals then baseDirs ++ diagDirs else baseDirs

/-- The cells `(x + dx*i, y + dy*i)` for `i < len`: the straight line a
placement occupies, in letter order. -/
def lineCells (x y dx dy : ℤ) (len : ℕ) : List (ℤ × ℤ) :=
  (List.range len).map fun (i : ℕ) => (x + dx * (i : ℤ), y + dy * (i : ℤ))

/-- The eight neighbour offsets the nested `ny`/`nx` loops of
`hasAdjacentOccupied` visit (all of the 3×3 block minus the centre). -/
def neighborOffsets : List (ℤ × ℤ) :=
  [(-1, -1), (0, -1), (1, -1), (-1, 0), (1, 0), (-1, 1), (0, 1), (1, 1)]

/-- `hasAdjacentOccupied(xx, yy)`: some in-bounds 8-neighbour of the
cell currently holds a letter. -/
def hasAdjacentOccupied (size : ℕ) (g : ℤ → ℤ → Option Char) (xx yy : ℤ) : Bool :=
  neighborOffsets.any
    fun d : ℤ × ℤ =>
      if xx + d.1 < 0 ∨ (size : ℤ) ≤ xx + d.1 ∨ yy + d.2 < 0 ∨ (size : ℤ) ≤ yy + d.2
      then false
      else (g (yy + d.2) (xx + d.1)).isSome

/-- One iteration of the `canPlace` loop, at letter index `i` (cell
`xx = x + dx*i`, `yy = y + dy*i`): out of bounds is infeasible; an
occupied cell is feasible only if its letter matches `word[i]`; an
empty cell is feasible only if it has no occupied 8-neighbour. -/
def canPlaceCell (size : ℕ) (g : ℤ → ℤ → Option Char) (word : List Char)
    (x y dx dy : ℤ) (i : ℕ) : Bool :=
  if x + dx * (i : ℤ) < 0 ∨ (size : ℤ) ≤ x + dx * (i : ℤ) ∨
     y + dy * (i : ℤ) < 0 ∨ (size : ℤ) ≤ y + dy * (i : ℤ) then false
  else
    match g (y + dy * (i : ℤ)) (x + dx * (i : ℤ)) with
    | some existing => decide (existing = word.getD i ' ')
    | none => ! hasAdjacentOccupied size g (x + dx * (i : ℤ)) (y + dy * (i : ℤ))

/-- `canPlace(word, x, y, dx, dy)`: every cell of the line passes its
per-cell check. -/
def canPlace (size : ℕ) (g : ℤ → ℤ → Option Char) (word : List Char)
    (x y dx dy : ℤ) : Bool :=
  (List.range word.length).all (canPlaceCell size g word x y dx dy)

/-- One iteration of the `doPlace` loop, at letter index `i`: write the
letter, set the mask, claim the cell's owner if previously unset. -/
def doPlaceStep (word : List Char) (x y dx dy : ℤ) (wordIndex : ℕ)
    (s : GenState) (i : ℕ) : GenState :=
  { s with
    grid := writeCell s.grid (x + dx * (i : ℤ)) (y + dy * (i : ℤ)) (word.getD i ' ')
    mark := writeMark s.mark (x + dx * (i : ℤ)) (y + dy * (i : ℤ))
    owner := if s.owner (y + dy * (i : ℤ)) (x + dx * (i : ℤ)) = none
             then writeOwner s.owner (x + dx * (i : ℤ)) (y + dy * (i : ℤ)) wordIndex
             else s.owner }

/-- `doPlace(word, x, y, dx, dy, wordIndex)`: run the write loop over
the letter indices, then push the placement record (whose `cells` are
exactly the line's cells, pushed one per letter). -/
def doPlace (word : List Char) (x y dx dy : ℤ) (wordIndex : ℕ) (st : GenState) :
    GenState :=
  let st' := (List.range word.length).foldl (doPlaceStep word x y dx dy wordIndex) st
  { st' with
    placements := st'.placements ++ [{ word := word, cells := lineCells x y dx dy word.length }] }

/-- One trial's random choices: the direction drawn by `choice(dirs)`,
then the start coordinates drawn from the direction-dependent ranges
(`xMin`/`xMax`/`yMin`/`yMax` exactly as in the source). -/
def trialStart (rand : ℕ → ℕ) (size : ℕ) (dirs : List (ℤ × ℤ)) (len : ℕ) (k : ℕ) :
    (ℤ × ℤ) × ℤ × ℤ :=
  let dir := choice (rand k) dirs (1, 0)
  let dx := dir.1
  let dy := dir.2
  let xMin : ℤ := if dx = -1 then (len : ℤ) - 1 else 0
  let xMax : ℤ := if dx = 1 then (size : ℤ) - (len : ℤ) else (size : ℤ) - 1
  let yMin : ℤ := if dy = -1 then (len : ℤ) - 1 else 0
  let yMax : ℤ := if dy = 1 then (size : ℤ) - (len : ℤ) else (size : ℤ) - 1
  let x := randInt (rand (k + 1)) (xMax - xMin + 1) + xMin
  let y := randInt (rand (k + 2)) (yMax - yMin + 1) + yMin
  (dir, x, y)

/-- The per-word trial loop (`for a = 0; a < attempts; a++`): each trial
draws a direction and a start (consuming three values of the stream),
commits via `doPlace` on the first feasible trial, and pushes the word
onto `failed` when the trial budget is exhausted. -/
def attemptWord (rand : ℕ → ℕ) (size : ℕ) (dirs : List (ℤ × ℤ))
    (word : List Char) (wi : ℕ) : ℕ → GenState → ℕ → GenState × ℕ
  | 0, st, k => ({ st with failed := st.failed ++ [word] }, k)
  | fuel + 1, st, k =>
    let t := trialStart rand size dirs word.length k
    if canPlace size st.grid word t.2.1 t.2.2 t.1.1 t.1.2 then
      (doPlace word t.2.1 t.2.2 t.1.1 t.1.2 wi st, k + 3)
    else
      attemptWord rand size dirs word wi fuel st (k + 3)

/-- The word loop (`for wi = 0; wi < sorted.length; wi++`), with the
source's fixed trial budget of 2000. -/
def placeLoop (rand : ℕ → ℕ) (size : ℕ) (dirs : List (ℤ × ℤ)) :
    List (List Char) → ℕ → GenState → ℕ → GenState × ℕ
  | [], _, st, k => (st, k)
  | w :: ws, wi, st, k =>
    let r := attemptWord rand size dirs w wi 2000 st k
    placeLoop rand size dirs ws (wi + 1) r.1 r.2

/-- Stable insertion of a word into a list sorted by descending length:
the word goes in front of the first entry that is not strictly longer,
i.e. after every strictly longer entry and before every entry of equal
or smaller length that was sorted earlier. -/
def insertByLen (w : List Char) : List (List Char) → List (List Char)
  | [] => [w]
  | v :: vs => if v.length ≤ w.length then w :: v :: vs else v :: insertByLen w vs

/-- `[...words].sort((a, b) => b.length - a.length)`: the ECMAScript
stable sort of a copy of `words` by descending length.  A stable sort
with respect to a total preorder has a unique result, so this stable
insertion sort computes exactly the array the source's sort produces. -/
def sortByLenDesc : List (List Char) → List (List Char)
  | [] => []
  | w :: ws => insertByLen w (sortByLenDesc ws)

/-- The 26-letter backfill alphabet. -/
def alphabetList : List Char := "ABCDEFGHIJKLMNOPQRSTUVWXYZ".toList

/-- The backfill scan over a list of cells: each still-empty cell
receives `alphabet[randInt(alphabet.length)]`, consuming one draw;
occupied cells consume nothing. -/
def fillCells (rand : ℕ → ℕ) :
    List (ℤ × ℤ) → (ℤ → ℤ → Option Char) → ℕ → (ℤ → ℤ → Option Char) × ℕ
  | [], g, k => (g, k)
  | p :: rest, g, k =>
    match g p.2 p.1 with
    | none =>
      fillCells rand rest
        (writeCell g p.1 p.2
          (alphabetList.getD (randInt (rand k) (alphabetList.length : ℤ)).toNat ' '))
        (k + 1)
    | some _ => fillCells rand rest g k

/-- Row `y` of the backfill scan order. -/
def rowCells (size : ℕ) (y : ℕ) : List (ℤ × ℤ) :=
  (List.range size).map fun (x : ℕ) => ((x : ℤ), (y : ℤ))

/-- The backfill scan order: `y` outer, `x` inner, as in the source's
final double loop. -/
def cellOrder (size : ℕ) : List (ℤ × ℤ) :=
  ((List.range size).map (rowCells size)).flatten

/-- The state at entry: all-null grid, all-false mask, all-null owner,
no placements, no failures. -/
def initState : GenState where
  grid := fun _ _ => none
  mark := fun _ _ => false
  owner := fun _ _ => none
  placements := []
  failed := []

/-- `generateWordsearch(words, size, allowDiagonals)`, the engine's
`place` operation, with the random stream made explicit. -/
def generateWordsearch (rand : ℕ → ℕ) (words : List (List Char)) (size : ℕ)
    (allowDiagonals : Bool) : GenResult :=
  let dirs := dirsFor allowDiagonals
  let sorted := sortByLenDesc words
  let pr := placeLoop rand size dirs sorted 0 initState 0
  let fr := fillCells rand (cellOrder size) pr.1.grid pr.2
  { grid := fr.1, mark := pr.1.mark, placements := pr.1.placements, failed := pr.1.failed }

/-- The engine's precondition (§4.1 input contract): a non-empty list of
distinct words, each uppercase alphabetic of length between 2 and
`size`. -/
def validWords (words : List (List Char)) (size : ℕ) : Prop :=
  words ≠ [] ∧ words.Nodup ∧
    ∀ w ∈ words, 2 ≤ w.length ∧ w.length ≤ size ∧ ∀ c ∈ w, c ∈ alphabetList

instance (words : List (List Char)) (size : ℕ) : Decidable (validWords words size) := by
  unfold validWords
  infer_instance

/-! ### Geometry -/

/-- `(x, y)` is a cell of the size×size grid. -/
def inB (size : ℕ) (x y : ℤ) : Prop :=
  0 ≤ x ∧ x < (size : ℤ) ∧ 0 ≤ y ∧ y < (size : ℤ)

instance (size : ℕ) (x y : ℤ) : Decidable (inB size x y) := by
  unfold inB
  infer_instance

/-- A unit king-move step: not the zero step, each component in
`{-1, 0, 1}`.  Every member of the engine's direction set is one. -/
def unitDir (d : ℤ × ℤ) : Prop :=
  ¬(d.1 = 0 ∧ d.2 = 0) ∧ d.1.natAbs ≤ 1 ∧ d.2.natAbs ≤ 1

instance (d : ℤ × ℤ) : Decidable (unitDir d) := by
  unfold unitDir
  infer_instance

/-- Two distinct cells within a king move of each other (8-adjacency). -/
def adjacentCell (c d : ℤ × ℤ) : Prop :=
  c ≠ d ∧ (c.1 - d.1).natAbs ≤ 1 ∧ (c.2 - d.2).natAbs ≤ 1

instance (c d : ℤ × ℤ) : Decidable (adjacentCell c d) := by
  unfold adjacentCell
  infer_instance

theorem adjacentCell_symm {c d : ℤ × ℤ} (h : adjacentCell c d) : adjacentCell d c := by
  obtain ⟨h1, h2, h3⟩ := h
  exact ⟨fun e => h1 e.symm, by omega, by omega⟩

theorem dirsFor_unit {b : Bool} : ∀ d ∈ dirsFor b, unitDir d := by
  cases b <;> decide

theorem dirsFor_length_pos (b : Bool) : 0 < (dirsFor b).length := by
  cases b <;> decide

theorem mem_neighborOffsets {a b : ℤ} (h0 : ¬(a = 0 ∧ b = 0))
    (h1 : a.natAbs ≤ 1) (h2 : b.natAbs ≤ 1) : (a, b) ∈ neighborOffsets := by
  have ha : a = -1 ∨ a = 0 ∨ a = 1 := by omega
  have hb : b = -1 ∨ b = 0 ∨ b = 1 := by omega
  rcases ha with h | h | h <;> rcases hb with h' | h' | h' <;> subst h <;> subst h' <;>
    simp_all [neighborOffsets]

theorem choice_mem {α : Type} (r : ℕ) (arr : List α) (dflt : α)
    (h : 0 < arr.length) : choice r arr dflt ∈ arr := by
  unfold choice randInt
  have hn : (0 : ℤ) < (arr.length : ℤ) := by exact_mod_cast h
  rw [if_pos hn]
  have h1 : (0 : ℤ) ≤ (r : ℤ) % (arr.length : ℤ) := Int.emod_nonneg _ (by omega)
  have h2 : (r : ℤ) % (arr.length : ℤ) < (arr.length : ℤ) := Int.emod_lt_of_pos _ hn
  have hlt : ((r : ℤ) % (arr.length : ℤ)).toNat < arr.length := by omega
  rw [List.getD_eq_getElem?_getD, List.getElem?_eq_getElem hlt]
  simp [List.getElem_mem]

/-! ### `lineCells` -/

theorem lineCells_length (x y dx dy : ℤ) (len : ℕ) :
    (lineCells x y dx dy len).length = len := by
  simp [lineCells]

theorem mem_lineCells {x y dx dy : ℤ} {len : ℕ} {c : ℤ × ℤ} :
    c ∈ lineCells x y dx dy len ↔ ∃ i < len, c = (x + dx * (i : ℤ), y + dy * (i : ℤ)) := by
  simp only [lineCells, List.mem_map, List.mem_range]
  constructor
  · rintro ⟨i, hi, rfl⟩
    exact ⟨i, hi, rfl⟩
  · rintro ⟨i, hi, rfl⟩
    exact ⟨i, hi, rfl⟩

theorem lineCells_getD {x y dx dy : ℤ} {len i : ℕ} (hi : i < len) :
    (lineCells x y dx dy len).getD i (0, 0) = (x + dx * (i : ℤ), y + dy * (i : ℤ)) := by
  unfold lineCells
  rw [List.getD_eq_getElem?_getD, List.getElem?_map, List.getElem?_range hi]
  rfl

/-- Along a genuine direction the line visits pairwise distinct cells. -/
theorem lineCells_inj {x y dx dy : ℤ} (hd : ¬(dx = 0 ∧ dy = 0)) {i j : ℕ}
    (h : (x + dx * (i : ℤ), y + dy * (i : ℤ)) = (x + dx * (j : ℤ), y + dy * (j : ℤ))) :
    i = j := by
  rw [Prod.ext_iff] at h
  obtain ⟨h1, h2⟩ := h
  simp only at h1 h2
  rcases not_and_or.mp hd with h0 | h0
  · have : dx * (i : ℤ) = dx * (j : ℤ) := by omega
    have := mul_left_cancel₀ h0 this
    omega
  · have : dy * (i : ℤ) = dy * (j : ℤ) := by omega
    have := mul_left_cancel₀ h0 this
    omega

/-- Consecutive cells of a line along a unit direction are 8-adjacent. -/
theorem lineCells_consec_adjacent {x y dx dy : ℤ} (hd : unitDir (dx, dy)) (i : ℕ) :
    adjacentCell (x + dx * ((i : ℤ) + 1), y + dy * ((i : ℤ) + 1))
      (x + dx * (i : ℤ), y + dy * (i : ℤ)) := by
  obtain ⟨h0, h1, h2⟩ := hd
  simp only at h0 h1 h2
  have ex : dx * ((i : ℤ) + 1) = dx * (i : ℤ) + dx := by ring
  have ey : dy * ((i : ℤ) + 1) = dy * (i : ℤ) + dy := by ring
  refine ⟨?_, by simp only; omega, by simp only; omega⟩
  intro h
  rw [Prod.ext_iff] at h
  obtain ⟨e1, e2⟩ := h
  simp only at e1 e2
  apply h0
  constructor <;> omega

/-! ### `hasAdjacentOccupied` and `canPlace` specifications -/

theorem hasAdjacentOccupied_eq_true {size : ℕ} {g : ℤ → ℤ → Option Char}
    {xx yy nx ny : ℤ} (hin : inB size nx ny) (hocc : (g ny nx).isSome)
    (hadj : adjacentCell (nx, ny) (xx, yy)) :
    hasAdjacentOccupied size g xx yy = true := by
  obtain ⟨hne, h1, h2⟩ := hadj
  simp only at h1 h2
  unfold hasAdjacentOccupied
  rw [List.any_eq_true]
  refine ⟨(nx - xx, ny - yy), mem_neighborOffsets ?_ (by omega) (by omega), ?_⟩
  · intro h
    exact hne (by rw [Prod.ext_iff]; constructor <;> simp only <;> omega)
  · simp only
    rw [show xx + (nx - xx) = nx from by ring, show yy + (ny - yy) = ny from by ring]
    rw [if_neg]
    · exact hocc
    · obtain ⟨a1, a2, a3, a4⟩ := hin
      push_neg
      exact ⟨by omega, by omega, by omega, by omega⟩

theorem eq_none_of_hasAdjacentOccupied_eq_false {size : ℕ}
    {g : ℤ → ℤ → Option Char} {xx yy : ℤ}
    (h : hasAdjacentOccupied size g xx yy = false)
    (hoob : ∀ x y : ℤ, ¬ inB size x y → g y x = none)
    {nx ny : ℤ} (hadj : adjacentCell (nx, ny) (xx, yy)) : g ny nx = none := by
  by_cases hin : inB size nx ny
  · by_contra hne
    have hso : (g ny nx).isSome := Option.isSome_iff_ne_none.mpr hne
    rw [hasAdjacentOccupied_eq_true hin hso hadj] at h
    exact absurd h (by simp)
  · exact hoob _ _ hin

theorem canPlace_spec {size : ℕ} {g : ℤ → ℤ → Option Char} {word : List Char}
    {x y dx dy : ℤ} (h : canPlace size g word x y dx dy = true)
    {i : ℕ} (hi : i < word.length) :
    inB size (x + dx * (i : ℤ)) (y + dy * (i : ℤ)) ∧
    (∀ c, g (y + dy * (i : ℤ)) (x + dx * (i : ℤ)) = some c → c = word.getD i ' ') ∧
    (g (y + dy * (i : ℤ)) (x + dx * (i : ℤ)) = none →
      hasAdjacentOccupied size g (x + dx * (i : ℤ)) (y + dy * (i : ℤ)) = false) := by
  unfold canPlace at h
  rw [List.all_eq_true] at h
  have hc := h i (List.mem_range.mpr hi)
  unfold canPlaceCell at hc
  by_cases hb : (x + dx * (i : ℤ) < 0 ∨ (size : ℤ) ≤ x + dx * (i : ℤ) ∨
      y + dy * (i : ℤ) < 0 ∨ (size : ℤ) ≤ y + dy * (i : ℤ))
  · rw [if_pos hb] at hc
    exact absurd hc (by simp)
  · rw [if_neg hb] at hc
    push_neg at hb
    refine ⟨⟨by omega, by omega, by omega, by omega⟩, ?_, ?_⟩
    · intro c hcell
      rw [hcell] at hc
      exact of_decide_eq_true hc
    · intro hcell
      rw [hcell] at hc
      simpa using hc

theorem canPlace_oob {size : ℕ} {g : ℤ → ℤ → Option Char} {word : List Char}
    {x y dx dy : ℤ} {i : ℕ} (hi : i < word.length)
    (hb : ¬ inB size (x + dx * (i : ℤ)) (y + dy * (i : ℤ))) :
    canPlace size g word x y dx dy = false := by
  rw [← Bool.not_eq_true]
  intro h
  exact hb (canPlace_spec h hi).1

/-- Occupancy is constant along the cells of a feasible line: an
occupied cell next to an empty one would make the empty cell's spacing
check fail, so `canPlace` would have rejected the trial. -/
theorem canPlace_occ_step {size : ℕ} {g : ℤ → ℤ → Option Char} {word : List Char}
    {x y dx dy : ℤ} (hd : unitDir (dx, dy))
    (h : canPlace size g word x y dx dy = true) {i : ℕ} (hi : i + 1 < word.length) :
    ((g (y + dy * (i : ℤ)) (x + dx * (i : ℤ))).isSome ↔
      (g (y + dy * ((i : ℤ) + 1)) (x + dx * ((i : ℤ) + 1))).isSome) := by
  have hcast : ((i + 1 : ℕ) : ℤ) = (i : ℤ) + 1 := by push_cast; ring
  have hs1 := canPlace_spec h (Nat.lt_of_succ_lt hi)
  have hs2 := canPlace_spec h hi
  rw [hcast] at hs2
  constructor
  · intro hocc
    by_contra hemp
    rw [Option.not_isSome_iff_eq_none] at hemp
    have hadjF := hs2.2.2 hemp
    have : hasAdjacentOccupied size g (x + dx * ((i : ℤ) + 1)) (y + dy * ((i : ℤ) + 1)) = true :=
      hasAdjacentOccupied_eq_true hs1.1 hocc
        (adjacentCell_symm (lineCells_consec_adjacent hd i))
    rw [this] at hadjF
    exact absurd hadjF (by simp)
  · intro hocc
    by_contra hemp
    rw [Option.not_isSome_iff_eq_none] at hemp
    have hadjF := hs1.2.2 hemp
    have : hasAdjacentOccupied size g (x + dx * (i : ℤ)) (y + dy * (i : ℤ)) = true :=
      hasAdjacentOccupied_eq_true hs2.1 hocc (lineCells_consec_adjacent hd i)
    rw [this] at hadjF
    exact absurd hadjF (by simp)

/-- A feasible line is either entirely over already-occupied cells
(a fully crossing placement) or entirely over empty cells. -/
theorem canPlace_dichotomy {size : ℕ} {g : ℤ → ℤ → Option Char} {word : List Char}
    {x y dx dy : ℤ} (hd : unitDir (dx, dy))
    (h : canPlace size g word x y dx dy = true) :
    (∀ i < word.length, (g (y + dy * (i : ℤ)) (x + dx * (i : ℤ))).isSome) ∨
    (∀ i < word.length, g (y + dy * (i : ℤ)) (x + dx * (i : ℤ)) = none) := by
  have key : ∀ i < word.length,
      ((g (y + dy * (i : ℤ)) (x + dx * (i : ℤ))).isSome ↔
        (g (y + dy * ((0 : ℕ) : ℤ)) (x + dx * ((0 : ℕ) : ℤ))).isSome) := by
    intro i
    induction i with
    | zero => intro _; exact Iff.rfl
    | succ n ih =>
      intro hn
      have hcast : ((n + 1 : ℕ) : ℤ) = (n : ℤ) + 1 := by push_cast; ring
      rw [hcast, ← canPlace_occ_step hd h hn]
      exact ih (Nat.lt_of_succ_lt hn)
  by_cases h0 : (g (y + dy * ((0 : ℕ) : ℤ)) (x + dx * ((0 : ℕ) : ℤ))).isSome
  · left
    intro i hi
    exact (key i hi).mpr h0
  · right
    intro i hi
    rw [← Option.not_isSome_iff_eq_none]
    intro hocc
    exact h0 ((key i hi).mp hocc)

/-! ### `doPlace` characterisation -/

theorem foldl_doPlaceStep_placements (word : List Char) (x y dx dy : ℤ) (wi : ℕ)
    (l : List ℕ) (st : GenState) :
    (l.foldl (doPlaceStep word x y dx dy wi) st).placements = st.placements := by
  induction l generalizing st with
  | nil => rfl
  | cons a l ih => rw [List.foldl_cons, ih]; rfl

theorem foldl_doPlaceStep_failed (word : List Char) (x y dx dy : ℤ) (wi : ℕ)
    (l : List ℕ) (st : GenState) :
    (l.foldl (doPlaceStep word x y dx dy wi) st).failed = st.failed := by
  induction l generalizing st with
  | nil => rfl
  | cons a l ih => rw [List.foldl_cons, ih]; rfl

theorem foldl_doPlaceStep_grid_not_mem {word : List Char} {x y dx dy : ℤ} {wi : ℕ}
    {l : List ℕ} {st : GenState} {x' y' : ℤ}
    (h : ∀ i ∈ l, ¬(x + dx * (i : ℤ) = x' ∧ y + dy * (i : ℤ) = y')) :
    (l.foldl (doPlaceStep word x y dx dy wi) st).grid y' x' = st.grid y' x' := by
  induction l generalizing st with
  | nil => rfl
  | cons a l ih =>
    rw [List.foldl_cons, ih (fun i hi => h i (List.mem_cons_of_mem a hi))]
    show writeCell st.grid (x + dx * (a : ℤ)) (y + dy * (a : ℤ)) _ y' x' = st.grid y' x'
    unfold writeCell
    rw [if_neg]
    intro hc
    exact h a (List.mem_cons_self a l) ⟨hc.2.symm, hc.1.symm⟩

theorem foldl_doPlaceStep_mark_not_mem {word : List Char} {x y dx dy : ℤ} {wi : ℕ}
    {l : List ℕ} {st : GenState} {x' y' : ℤ}
    (h : ∀ i ∈ l, ¬(x + dx * (i : ℤ) = x' ∧ y + dy * (i : ℤ) = y')) :
    (l.foldl (doPlaceStep word x y dx dy wi) st).mark y' x' = st.mark y' x' := by
  induction l generalizing st with
  | nil => rfl
  | cons a l ih =>
    rw [List.foldl_cons, ih (fun i hi => h i (List.mem_cons_of_mem a hi))]
    show writeMark st.mark (x + dx * (a : ℤ)) (y + dy * (a : ℤ)) y' x' = st.mark y' x'
    unfold writeMark
    rw [if_neg]
    intro hc
    exact h a (List.mem_cons_self a l) ⟨hc.2.symm, hc.1.symm⟩

theorem foldl_doPlaceStep_grid_mem {word : List Char} {x y dx dy : ℤ} {wi : ℕ}
    {l : List ℕ} {st : GenState} {i : ℕ} (hmem : i ∈ l)
    (huniq : ∀ j ∈ l, (x + dx * (j : ℤ), y + dy * (j : ℤ)) = (x + dx * (i : ℤ), y + dy * (i : ℤ)) → j = i) :
    (l.foldl (doPlaceStep word x y dx dy wi) st).grid (y + dy * (i : ℤ)) (x + dx * (i : ℤ)) =
      some (word.getD i ' ') := by
  induction l generalizing st with
  | nil => exact absurd hmem (List.not_mem_nil i)
  | cons a l ih =>
    rw [List.foldl_cons]
    by_cases hil : i ∈ l
    · exact ih hil (fun j hj => huniq j (List.mem_cons_of_mem a hj))
    · have hia : i = a := by
        rcases List.mem_cons.mp hmem with h | h
        · exact h
        · exact absurd h hil
      subst hia
      rw [foldl_doPlaceStep_grid_not_mem]
      · show writeCell st.grid (x + dx * (i : ℤ)) (y + dy * (i : ℤ)) _ _ _ = _
        unfold writeCell
        rw [if_pos ⟨rfl, rfl⟩]
      · intro j hj hc
        have : j = i := huniq j (List.mem_cons_of_mem i hj) (by rw [Prod.ext_iff]; exact ⟨hc.1, hc.2⟩)
        subst this
        exact hil hj

theorem foldl_doPlaceStep_mark_mem {word : List Char} {x y dx dy : ℤ} {wi : ℕ}
    {l : List ℕ} {st : GenState} {i : ℕ} (hmem : i ∈ l)
    (huniq : ∀ j ∈ l, (x + dx * (j : ℤ), y + dy * (j : ℤ)) = (x + dx * (i : ℤ), y + dy * (i : ℤ)) → j = i) :
    (l.foldl (doPlaceStep word x y dx dy wi) st).mark (y + dy * (i : ℤ)) (x + dx * (i : ℤ)) = true := by
  induction l generalizing st with
  | nil => exact absurd hmem (List.not_mem_nil i)
  | cons a l ih =>
    rw [List.foldl_cons]
    by_cases hil : i ∈ l
    · exact ih hil (fun j hj => huniq j (List.mem_cons_of_mem a hj))
    · have hia : i = a := by
        rcases List.mem_cons.mp hmem with h | h
        · exact h
        · exact absurd h hil
      subst hia
      rw [foldl_doPlaceStep_mark_not_mem]
      · show writeMark st.mark (x + dx * (i : ℤ)) (y + dy * (i : ℤ)) _ _ = _
        unfold writeMark
        rw [if_pos ⟨rfl, rfl⟩]
      · intro j hj hc
        have : j = i := huniq j (List.mem_cons_of_mem i hj) (by rw [Prod.ext_iff]; exact ⟨hc.1, hc.2⟩)
        subst this
        exact hil hj

theorem doPlace_placements (word : List Char) (x y dx dy : ℤ) (wi : ℕ) (st : GenState) :
    (doPlace word x y dx dy wi st).placements =
      st.placements ++ [{ word := word, cells := lineCells x y dx dy word.length }] := by
  simp only [doPlace]
  rw [foldl_doPlaceStep_placements]

theorem doPlace_failed (word : List Char) (x y dx dy : ℤ) (wi : ℕ) (st : GenState) :
    (doPlace word x y dx dy wi st).failed = st.failed := by
  simp only [doPlace]
  exact foldl_doPlaceStep_failed word x y dx dy wi _ st

theorem doPlace_grid_not_mem {word : List Char} {x y dx dy : ℤ} {wi : ℕ}
    {st : GenState} {x' y' : ℤ} (h : (x', y') ∉ lineCells x y dx dy word.length) :
    (doPlace word x y dx dy wi st).grid y' x' = st.grid y' x' := by
  simp only [doPlace]
  apply foldl_doPlaceStep_grid_not_mem
  intro i hi hc
  exact h (mem_lineCells.mpr ⟨i, List.mem_range.mp hi, by rw [Prod.ext_iff]; exact ⟨hc.1.symm, hc.2.symm⟩⟩)

theorem doPlace_mark_not_mem {word : List Char} {x y dx dy : ℤ} {wi : ℕ}
    {st : GenState} {x' y' : ℤ} (h : (x', y') ∉ lineCells x y dx dy word.length) :
    (doPlace word x y dx dy wi st).mark y' x' = st.mark y' x' := by
  simp only [doPlace]
  apply foldl_doPlaceStep_mark_not_mem
  intro i hi hc
  exact h (mem_lineCells.mpr ⟨i, List.mem_range.mp hi, by rw [Prod.ext_iff]; exact ⟨hc.1.symm, hc.2.symm⟩⟩)

theorem doPlace_grid_at {word : List Char} {x y dx dy : ℤ} {wi : ℕ}
    {st : GenState} (hd : ¬(dx = 0 ∧ dy = 0)) {i : ℕ} (hi : i < word.length) :
    (doPlace word x y dx dy wi st).grid (y + dy * (i : ℤ)) (x + dx * (i : ℤ)) =
      some (word.getD i ' ') := by
  simp only [doPlace]
  apply foldl_doPlaceStep_grid_mem (List.mem_range.mpr hi)
  intro j hj hc
  exact lineCells_inj hd hc

theorem doPlace_mark_at {word : List Char} {x y dx dy : ℤ} {wi : ℕ}
    {st : GenState} (hd : ¬(dx = 0 ∧ dy = 0)) {i : ℕ} (hi : i < word.length) :
    (doPlace word x y dx dy wi st).mark (y + dy * (i : ℤ)) (x + dx * (i : ℤ)) = true := by
  simp only [doPlace]
  apply foldl_doPlaceStep_mark_mem (List.mem_range.mpr hi)
  intro j hj hc
  exact lineCells_inj hd hc

/-! ### The run invariant -/

/-- Cell `c` belongs to some placement of `P`. -/
def coveredBy (P : List Placement) (c : ℤ × ℤ) : Prop :=
  ∃ pl ∈ P, c ∈ pl.cells

instance (P : List Placement) (c : ℤ × ℤ) : Decidable (coveredBy P c) := by
  unfold coveredBy
  infer_instance

/-- Cell `c` belongs to `p` and to no other placement of `P`: it is one
of `p`'s non-overlap cells in the final picture. -/
def exclusiveTo (P : List Placement) (p : Placement) (c : ℤ × ℤ) : Prop :=
  c ∈ p.cells ∧ ∀ r ∈ P, r ≠ p → c ∉ r.cells

instance (P : List Placement) (p : Placement) (c : ℤ × ℤ) :
    Decidable (exclusiveTo P p c) := by
  unfold exclusiveTo
  infer_instance

theorem coveredBy_append_singleton {P : List Placement} {npl : Placement} {c : ℤ × ℤ} :
    coveredBy (P ++ [npl]) c ↔ coveredBy P c ∨ c ∈ npl.cells := by
  unfold coveredBy
  constructor
  · rintro ⟨pl, hpl, hc⟩
    rcases List.mem_append.mp hpl with h | h
    · exact Or.inl ⟨pl, h, hc⟩
    · rw [List.mem_singleton.mp h] at hc
      exact Or.inr hc
  · rintro (⟨pl, hpl, hc⟩ | hc)
    · exact ⟨pl, List.mem_append_left _ hpl, hc⟩
    · exact ⟨npl, List.mem_append_right _ (List.mem_singleton_self npl), hc⟩

theorem getD_mem_of_lt {l : List Char} {i : ℕ} (h : i < l.length) :
    l.getD i ' ' ∈ l := by
  rw [List.getD_eq_getElem?_getD, List.getElem?_eq_getElem h]
  simp [List.getElem_mem]

/-- The invariant maintained by the placement phase of a run whose
direction set is `dirs` (all unit king moves):
* out-of-bounds cells are never written;
* every committed placement is a straight in-bounds line spelling its
  word in the current grid;
* the grid's occupied cells are exactly the cells of committed
  placements, and likewise for the mask;
* every letter on the grid is a letter of some committed word;
* committed words are pairwise distinct;
* non-overlap cells of distinct placements are never 8-adjacent. -/
structure Inv (size : ℕ) (dirs : List (ℤ × ℤ)) (st : GenState) : Prop where
  oob : ∀ x y : ℤ, ¬ inB size x y → st.grid y x = none
  spell : ∀ pl ∈ st.placements, ∃ x y dx dy,
    (dx, dy) ∈ dirs ∧
    pl.cells = lineCells x y dx dy pl.word.length ∧
    ∀ i < pl.word.length,
      inB size (x + dx * (i : ℤ)) (y + dy * (i : ℤ)) ∧
      st.grid (y + dy * (i : ℤ)) (x + dx * (i : ℤ)) = some (pl.word.getD i ' ')
  covered : ∀ x y : ℤ, (st.grid y x).isSome ↔ coveredBy st.placements (x, y)
  markCov : ∀ x y : ℤ, st.mark y x = true ↔ coveredBy st.placements (x, y)
  letters : ∀ (x y : ℤ) (c : Char), st.grid y x = some c → ∃ pl ∈ st.placements, c ∈ pl.word
  nodupW : (st.placements.map Placement.word).Nodup
  spacing : ∀ p ∈ st.placements, ∀ q ∈ st.placements, p ≠ q →
    ∀ c, exclusiveTo st.placements p c →
    ∀ c', exclusiveTo st.placements q c' → ¬ adjacentCell c c'

theorem inv_init (size : ℕ) (dirs : List (ℤ × ℤ)) : Inv size dirs initState := by
  constructor
  · intro x y _
    rfl
  · intro pl hpl
    exact absurd hpl (List.not_mem_nil pl)
  · intro x y
    constructor
    · intro h
      exact absurd h (by simp [initState])
    · rintro ⟨pl, hpl, _⟩
      exact absurd hpl (List.not_mem_nil pl)
  · intro x y
    constructor
    · intro h
      exact absurd h (by simp [initState])
    · rintro ⟨pl, hpl, _⟩
      exact absurd hpl (List.not_mem_nil pl)
  · intro x y c h
    exact absurd h (by simp [initState])
  · simp [initState]
  · intro p hp
    exact absurd hp (List.not_mem_nil p)

/-- Changing only `failed` keeps the invariant. -/
theorem inv_set_failed {size : ℕ} {dirs : List (ℤ × ℤ)} {st : GenState}
    (inv : Inv size dirs st) (f : List (List Char)) :
    Inv size dirs { st with failed := f } :=
  ⟨inv.oob, inv.spell, inv.covered, inv.markCov, inv.letters, inv.nodupW, inv.spacing⟩

/-- A committed write never changes an already-written letter: the cell
either keeps its letter (a matching overlap) or was empty. -/
theorem doPlace_grid_mono {size : ℕ} {st : GenState} {word : List Char}
    {x y dx dy : ℤ} {wi : ℕ} (hd0 : ¬(dx = 0 ∧ dy = 0))
    (hcan : canPlace size st.grid word x y dx dy = true)
    {x' y' : ℤ} {c : Char} (h : st.grid y' x' = some c) :
    (doPlace word x y dx dy wi st).grid y' x' = some c := by
  by_cases hmem : (x', y') ∈ lineCells x y dx dy word.length
  · obtain ⟨i, hi, hc⟩ := mem_lineCells.mp hmem
    rw [Prod.ext_iff] at hc
    obtain ⟨h1, h2⟩ := hc
    simp only at h1 h2
    subst h1
    subst h2
    rw [doPlace_grid_at hd0 hi]
    have := (canPlace_spec hcan hi).2.1 c h
    rw [this]
  · rw [doPlace_grid_not_mem hmem]
    exact h

theorem doPlace_grid_isSome_iff {size : ℕ} {st : GenState} {word : List Char}
    {x y dx dy : ℤ} {wi : ℕ} (hd0 : ¬(dx = 0 ∧ dy = 0))
    (hcan : canPlace size st.grid word x y dx dy = true) (x' y' : ℤ) :
    ((doPlace word x y dx dy wi st).grid y' x').isSome ↔
      (x', y') ∈ lineCells x y dx dy word.length ∨ (st.grid y' x').isSome := by
  constructor
  · intro h
    by_cases hmem : (x', y') ∈ lineCells x y dx dy word.length
    · exact Or.inl hmem
    · rw [doPlace_grid_not_mem hmem] at h
      exact Or.inr h
  · intro h
    rcases h with hmem | hsome
    · obtain ⟨i, hi, hc⟩ := mem_lineCells.mp hmem
      rw [Prod.ext_iff] at hc
      obtain ⟨h1, h2⟩ := hc
      simp only at h1 h2
      subst h1
      subst h2
      rw [doPlace_grid_at hd0 hi]
      rfl
    · obtain ⟨c, hc⟩ := Option.isSome_iff_exists.mp hsome
      rw [doPlace_grid_mono hd0 hcan hc]
      rfl

theorem doPlace_mark_iff {st : GenState} {word : List Char}
    {x y dx dy : ℤ} {wi : ℕ} (hd0 : ¬(dx = 0 ∧ dy = 0)) (x' y' : ℤ) :
    (doPlace word x y dx dy wi st).mark y' x' = true ↔
      (x', y') ∈ lineCells x y dx dy word.length ∨ st.mark y' x' = true := by
  constructor
  · intro h
    by_cases hmem : (x', y') ∈ lineCells x y dx dy word.length
    · exact Or.inl hmem
    · rw [doPlace_mark_not_mem hmem] at h
      exact Or.inr h
  · intro h
    rcases h with hmem | hm
    · obtain ⟨i, hi, hc⟩ := mem_lineCells.mp hmem
      rw [Prod.ext_iff] at hc
      obtain ⟨h1, h2⟩ := hc
      simp only at h1 h2
      subst h1
      subst h2
      exact doPlace_mark_at hd0 hi
    · by_cases hmem : (x', y') ∈ lineCells x y dx dy word.length
      · obtain ⟨i, hi, hc⟩ := mem_lineCells.mp hmem
        rw [Prod.ext_iff] at hc
        obtain ⟨h1, h2⟩ := hc
        simp only at h1 h2
        subst h1
        subst h2
        exact doPlace_mark_at hd0 hi
      · rw [doPlace_mark_not_mem hmem]
        exact hm

/-- Committing a feasible placement preserves the run invariant.  The
spacing clause rests on the dichotomy: a feasible line is either fully
fresh — and then, by the spacing rule, none of its cells touches any
previously occupied cell — or fully overlapping — and then it
contributes no exclusive cells at all. -/
theorem doPlace_inv {size : ℕ} {dirs : List (ℤ × ℤ)} {st : GenState}
    (inv : Inv size dirs st) {word : List Char} {x y dx dy : ℤ} {wi : ℕ}
    (hdirs : ∀ d ∈ dirs, unitDir d) (hdir : (dx, dy) ∈ dirs)
    (hcan : canPlace size st.grid word x y dx dy = true)
    (hnew : word ∉ st.placements.map Placement.word) :
    Inv size dirs (doPlace word x y dx dy wi st) := by
  have hud : unitDir (dx, dy) := hdirs _ hdir
  have hd0 : ¬(dx = 0 ∧ dy = 0) := hud.1
  have hpl : (doPlace word x y dx dy wi st).placements =
      st.placements ++ [{ word := word, cells := lineCells x y dx dy word.length }] :=
    doPlace_placements word x y dx dy wi st
  set npl : Placement := { word := word, cells := lineCells x y dx dy word.length }
    with hnpldef
  have hcells : npl.cells = lineCells x y dx dy word.length := rfl
  have hword : npl.word = word := rfl
  have npl_ne : ∀ r ∈ st.placements, r ≠ npl := by
    intro r hr he
    apply hnew
    apply List.mem_map.mpr
    exact ⟨r, hr, by rw [he]⟩
  have excl_old : ∀ p ∈ st.placements, ∀ c : ℤ × ℤ,
      exclusiveTo (st.placements ++ [npl]) p c →
      exclusiveTo st.placements p c ∧ c ∉ npl.cells := by
    intro p hp c hex
    obtain ⟨hcp, hall⟩ := hex
    refine ⟨⟨hcp, fun r hr hrp => hall r (List.mem_append_left _ hr) hrp⟩, ?_⟩
    refine hall npl (List.mem_append_right _ (List.mem_singleton_self npl)) ?_
    intro he
    exact npl_ne p hp he.symm
  constructor
  · -- oob
    intro x' y' hnb
    by_cases hmem : (x', y') ∈ lineCells x y dx dy word.length
    · obtain ⟨i, hi, hc⟩ := mem_lineCells.mp hmem
      rw [Prod.ext_iff] at hc
      obtain ⟨h1, h2⟩ := hc
      simp only at h1 h2
      subst h1
      subst h2
      exact absurd (canPlace_spec hcan hi).1 hnb
    · rw [doPlace_grid_not_mem hmem]
      exact inv.oob _ _ hnb
  · -- spell
    intro pl hplm
    rw [hpl] at hplm
    rcases List.mem_append.mp hplm with hold | hnewm
    · obtain ⟨x0, y0, dx0, dy0, hd0', hcells0, hvals⟩ := inv.spell pl hold
      exact ⟨x0, y0, dx0, dy0, hd0', hcells0,
        fun i hi => ⟨(hvals i hi).1, doPlace_grid_mono hd0 hcan (hvals i hi).2⟩⟩
    · rw [List.mem_singleton.mp hnewm]
      refine ⟨x, y, dx, dy, hdir, by rw [hcells, hword], ?_⟩
      intro i hi
      rw [hword] at hi ⊢
      exact ⟨(canPlace_spec hcan hi).1, doPlace_grid_at hd0 hi⟩
  · -- covered
    intro x' y'
    rw [hpl, coveredBy_append_singleton, doPlace_grid_isSome_iff hd0 hcan,
      inv.covered, hcells]
    exact or_comm
  · -- markCov
    intro x' y'
    rw [hpl, coveredBy_append_singleton, doPlace_mark_iff hd0, inv.markCov, hcells]
    exact or_comm
  · -- letters
    intro x' y' c h
    by_cases hmem : (x', y') ∈ lineCells x y dx dy word.length
    · obtain ⟨i, hi, hc⟩ := mem_lineCells.mp hmem
      rw [Prod.ext_iff] at hc
      obtain ⟨h1, h2⟩ := hc
      simp only at h1 h2
      subst h1
      subst h2
      rw [doPlace_grid_at hd0 hi] at h
      have hcv : c = word.getD i ' ' := (Option.some.inj h).symm
      refine ⟨npl, ?_, ?_⟩
      · rw [hpl]
        exact List.mem_append_right _ (List.mem_singleton_self npl)
      · rw [hword, hcv]
        exact getD_mem_of_lt hi
    · rw [doPlace_grid_not_mem hmem] at h
      obtain ⟨pl, hplm, hcw⟩ := inv.letters _ _ _ h
      refine ⟨pl, ?_, hcw⟩
      rw [hpl]
      exact List.mem_append_left _ hplm
  · -- nodupW
    rw [hpl, List.map_append]
    rw [List.nodup_append]
    refine ⟨inv.nodupW, by simp, ?_⟩
    intro a ha hb
    simp only [List.map_cons, List.map_nil, List.mem_singleton] at hb
    rw [hb] at ha
    exact hnew ha
  · -- spacing
    intro p hp q hq hpq c hc c' hc'
    rw [hpl] at hp hq hc hc'
    rcases canPlace_dichotomy hud hcan with hall | hemp
    · -- fully overlapping commit: no new exclusive cells
      have line_cov : ∀ cc ∈ npl.cells, coveredBy st.placements cc := by
        intro cc hcc
        rw [hcells] at hcc
        obtain ⟨i, hi, hcc'⟩ := mem_lineCells.mp hcc
        subst hcc'
        exact (inv.covered _ _).mp (hall i hi)
      rcases List.mem_append.mp hp with hpo | hpn
      · rcases List.mem_append.mp hq with hqo | hqn
        · exact inv.spacing p hpo q hqo hpq c (excl_old p hpo c hc).1
            c' (excl_old q hqo c' hc').1
        · rw [List.mem_singleton.mp hqn] at hc' hpq
          obtain ⟨r, hr, hcr⟩ := line_cov c' hc'.1
          exact absurd hcr (hc'.2 r (List.mem_append_left _ hr) (npl_ne r hr))
      · rw [List.mem_singleton.mp hpn] at hc hpq
        obtain ⟨r, hr, hcr⟩ := line_cov c hc.1
        exact absurd hcr (hc.2 r (List.mem_append_left _ hr) (npl_ne r hr))
    · -- fully fresh commit: its cells touch no previously occupied cell
      have no_adj : ∀ cc ∈ npl.cells, ∀ z : ℤ × ℤ,
          (st.grid z.2 z.1).isSome → ¬ adjacentCell z cc := by
        intro cc hcc z hocc hadj
        rw [hcells] at hcc
        obtain ⟨i, hi, hcc'⟩ := mem_lineCells.mp hcc
        subst hcc'
        have hadjF := (canPlace_spec hcan hi).2.2 (hemp i hi)
        have hz := eq_none_of_hasAdjacentOccupied_eq_false hadjF inv.oob hadj
        rw [hz] at hocc
        exact absurd hocc (by simp)
      have old_occ : ∀ r ∈ st.placements, ∀ cr ∈ r.cells, (st.grid cr.2 cr.1).isSome := by
        intro r hr cr hcr
        exact (inv.covered cr.1 cr.2).mpr ⟨r, hr, hcr⟩
      rcases List.mem_append.mp hp with hpo | hpn
      · rcases List.mem_append.mp hq with hqo | hqn
        · exact inv.spacing p hpo q hqo hpq c (excl_old p hpo c hc).1
            c' (excl_old q hqo c' hc').1
        · rw [List.mem_singleton.mp hqn] at hc'
          exact no_adj c' hc'.1 c (old_occ p hpo c hc.1)
      · rw [List.mem_singleton.mp hpn] at hc
        rcases List.mem_append.mp hq with hqo | hqn
        · intro hadj
          exact no_adj c hc.1 c' (old_occ q hqo c' hc'.1) (adjacentCell_symm hadj)
        · rw [List.mem_singleton.mp hpn, List.mem_singleton.mp hqn] at hpq
          exact absurd rfl hpq

/-! ### The trial loop and the word loop -/

theorem trialStart_dir (rand : ℕ → ℕ) (size : ℕ) (dirs : List (ℤ × ℤ)) (len k : ℕ) :
    (trialStart rand size dirs len k).1 = choice (rand k) dirs (1, 0) := rfl

/-- A run of the trial loop either exhausts its budget — leaving every
component of the state unchanged except for the `failed` push — or
commits its word through `doPlace` at some feasible trial. -/
theorem attemptWord_cases (rand : ℕ → ℕ) (size : ℕ) (dirs : List (ℤ × ℤ))
    (word : List Char) (wi : ℕ) (hlen : 0 < dirs.length) :
    ∀ (fuel : ℕ) (st : GenState) (k : ℕ),
      (attemptWord rand size dirs word wi fuel st k).1 =
        { st with failed := st.failed ++ [word] } ∨
      ∃ x y dx dy, (dx, dy) ∈ dirs ∧ canPlace size st.grid word x y dx dy = true ∧
        (attemptWord rand size dirs word wi fuel st k).1 = doPlace word x y dx dy wi st := by
  intro fuel
  induction fuel with
  | zero =>
    intro st k
    left
    rfl
  | succ fuel ih =>
    intro st k
    rw [show attemptWord rand size dirs word wi (fuel + 1) st k =
      (if canPlace size st.grid word (trialStart rand size dirs word.length k).2.1
          (trialStart rand size dirs word.length k).2.2
          (trialStart rand size dirs word.length k).1.1
          (trialStart rand size dirs word.length k).1.2 then
        (doPlace word (trialStart rand size dirs word.length k).2.1
          (trialStart rand size dirs word.length k).2.2
          (trialStart rand size dirs word.length k).1.1
          (trialStart rand size dirs word.length k).1.2 wi st, k + 3)
      else attemptWord rand size dirs word wi fuel st (k + 3)) from rfl]
    by_cases hcan : canPlace size st.grid word (trialStart rand size dirs word.length k).2.1
        (trialStart rand size dirs word.length k).2.2
        (trialStart rand size dirs word.length k).1.1
        (trialStart rand size dirs word.length k).1.2 = true
    · rw [if_pos hcan]
      right
      refine ⟨(trialStart rand size dirs word.length k).2.1,
        (trialStart rand size dirs word.length k).2.2,
        (trialStart rand size dirs word.length k).1.1,
        (trialStart rand size dirs word.length k).1.2, ?_, hcan, rfl⟩
      have hmem : (trialStart rand size dirs word.length k).1 ∈ dirs := by
        rw [trialStart_dir]
        exact choice_mem _ _ _ hlen
      exact Prod.mk.eta.symm ▸ hmem
    · rw [if_neg hcan]
      exact ih st (k + 3)

theorem attemptWord_inv {size : ℕ} {dirs : List (ℤ × ℤ)}
    (hdirs : ∀ d ∈ dirs, unitDir d) (hlen : 0 < dirs.length)
    {rand : ℕ → ℕ} {word : List Char} {wi fuel : ℕ} {st : GenState} {k : ℕ}
    (inv : Inv size dirs st) (hnew : word ∉ st.placements.map Placement.word) :
    Inv size dirs (attemptWord rand size dirs word wi fuel st k).1 := by
  rcases attemptWord_cases rand size dirs word wi hlen fuel st k with h | ⟨x, y, dx, dy, hdir, hcan, h⟩
  · rw [h]
    exact inv_set_failed inv _
  · rw [h]
    exact doPlace_inv inv hdirs hdir hcan hnew

/-- Output bookkeeping of one word's trials: the word lands either on
`failed` (placements untouched) or on `placements` (failed untouched),
never on both. -/
theorem attemptWord_out (rand : ℕ → ℕ) (size : ℕ) (dirs : List (ℤ × ℤ))
    (word : List Char) (wi : ℕ) (hlen : 0 < dirs.length)
    (fuel : ℕ) (st : GenState) (k : ℕ) :
    ((attemptWord rand size dirs word wi fuel st k).1.placements = st.placements ∧
      (attemptWord rand size dirs word wi fuel st k).1.failed = st.failed ++ [word]) ∨
    (∃ cells, (attemptWord rand size dirs word wi fuel st k).1.placements =
        st.placements ++ [{ word := word, cells := cells }] ∧
      (attemptWord rand size dirs word wi fuel st k).1.failed = st.failed) := by
  rcases attemptWord_cases rand size dirs word wi hlen fuel st k with h | ⟨x, y, dx, dy, _, _, h⟩
  · left
    rw [h]
    exact ⟨rfl, rfl⟩
  · right
    exact ⟨lineCells x y dx dy word.length,
      by rw [h, doPlace_placements], by rw [h, doPlace_failed]⟩

theorem placeLoop_cons (rand : ℕ → ℕ) (size : ℕ) (dirs : List (ℤ × ℤ))
    (w : List Char) (ws : List (List Char)) (wi : ℕ) (st : GenState) (k : ℕ) :
    placeLoop rand size dirs (w :: ws) wi st k =
      placeLoop rand size dirs ws (wi + 1)
        (attemptWord rand size dirs w wi 2000 st k).1
        (attemptWord rand size dirs w wi 2000 st k).2 := rfl

/-- The word loop preserves the run invariant, provided the pending
words stay distinct from each other and from the committed ones. -/
theorem placeLoop_inv {size : ℕ} {dirs : List (ℤ × ℤ)}
    (hdirs : ∀ d ∈ dirs, unitDir d) (hlen : 0 < dirs.length) (rand : ℕ → ℕ) :
    ∀ (ws : List (List Char)) (wi : ℕ) (st : GenState) (k : ℕ),
      Inv size dirs st →
      ((st.placements.map Placement.word) ++ ws).Nodup →
      Inv size dirs (placeLoop rand size dirs ws wi st k).1 := by
  intro ws
  induction ws with
  | nil =>
    intro wi st k inv _
    exact inv
  | cons w ws ih =>
    intro wi st k inv hnd
    rw [placeLoop_cons]
    have hdisj := (List.nodup_append.mp hnd).2.2
    have hwnotin : w ∉ st.placements.map Placement.word := by
      intro hmem
      exact hdisj hmem (List.mem_cons_self w ws)
    apply ih
    · exact attemptWord_inv hdirs hlen inv hwnotin
    · rcases attemptWord_out rand size dirs w wi hlen 2000 st k with ⟨hp, _⟩ | ⟨cells, hp, _⟩
      · rw [hp]
        refine List.Nodup.sublist ?_ hnd
        exact List.Sublist.append_left (List.sublist_cons_self w ws) _
      · rw [hp, List.map_append]
        have : (List.map Placement.word st.placements ++ [w]) ++ ws =
            List.map Placement.word st.placements ++ w :: ws := by
          rw [List.append_assoc]
          rfl
        rw [show List.map Placement.word [{ word := w, cells := cells }] = [w] from rfl, this]
        exact hnd

/-- Output bookkeeping of the word loop: the words processed are
appended, each to exactly one of the two output lists. -/
theorem placeLoop_perm (rand : ℕ → ℕ) (size : ℕ) (dirs : List (ℤ × ℤ))
    (hlen : 0 < dirs.length) :
    ∀ (ws : List (List Char)) (wi : ℕ) (st : GenState) (k : ℕ),
      List.Perm
        ((placeLoop rand size dirs ws wi st k).1.placements.map Placement.word ++
          (placeLoop rand size dirs ws wi st k).1.failed)
        ((st.placements.map Placement.word ++ st.failed) ++ ws) := by
  intro ws
  induction ws with
  | nil =>
    intro wi st k
    rw [List.append_nil]
    exact List.Perm.refl _
  | cons w ws ih =>
    intro wi st k
    rw [placeLoop_cons]
    have step : List.Perm
        ((attemptWord rand size dirs w wi 2000 st k).1.placements.map Placement.word ++
          (attemptWord rand size dirs w wi 2000 st k).1.failed)
        ((st.placements.map Placement.word ++ st.failed) ++ [w]) := by
      rcases attemptWord_out rand size dirs w wi hlen 2000 st k with ⟨hp, hf⟩ | ⟨cells, hp, hf⟩
      · rw [hp, hf, ← List.append_assoc]
      · rw [hp, hf, List.map_append]
        rw [show List.map Placement.word [{ word := w, cells := cells }] = [w] from rfl]
        rw [List.append_assoc, List.append_assoc]
        exact List.Perm.append_left _ List.perm_append_comm
    have h1 := ih (wi + 1) (attemptWord rand size dirs w wi 2000 st k).1
      (attemptWord rand size dirs w wi 2000 st k).2
    have h2 := List.Perm.append_right ws step
    have h3 : List.Perm
        (((st.placements.map Placement.word ++ st.failed) ++ [w]) ++ ws)
        ((st.placements.map Placement.word ++ st.failed) ++ w :: ws) := by
      rw [List.append_assoc]
      exact List.Perm.refl _
    exact (h1.trans h2).trans h3

/-- The words of the output placements extend the committed ones by a
subsequence of the processed words, and likewise for `failed`. -/
theorem placeLoop_sublist (rand : ℕ → ℕ) (size : ℕ) (dirs : List (ℤ × ℤ))
    (hlen : 0 < dirs.length) :
    ∀ (ws : List (List Char)) (wi : ℕ) (st : GenState) (k : ℕ),
      ∃ l l',
        (placeLoop rand size dirs ws wi st k).1.placements.map Placement.word =
          st.placements.map Placement.word ++ l ∧ l.Sublist ws ∧
        (placeLoop rand size dirs ws wi st k).1.failed = st.failed ++ l' ∧ l'.Sublist ws := by
  intro ws
  induction ws with
  | nil =>
    intro wi st k
    exact ⟨[], [], by rw [List.append_nil]; rfl, List.nil_sublist _,
      by rw [List.append_nil]; rfl, List.nil_sublist _⟩
  | cons w ws ih =>
    intro wi st k
    rw [placeLoop_cons]
    obtain ⟨l, l', h1, h2, h3, h4⟩ := ih (wi + 1)
      (attemptWord rand size dirs w wi 2000 st k).1
      (attemptWord rand size dirs w wi 2000 st k).2
    rcases attemptWord_out rand size dirs w wi hlen 2000 st k with ⟨hp, hf⟩ | ⟨cells, hp, hf⟩
    · refine ⟨l, w :: l', ?_, List.Sublist.cons w h2, ?_, List.Sublist.cons₂ w h4⟩
      · rw [h1, hp]
      · rw [h3, hf, List.append_assoc]
        rfl
    · refine ⟨w :: l, l', ?_, List.Sublist.cons₂ w h2, ?_, List.Sublist.cons w h4⟩
      · rw [h1, hp, List.map_append]
        rw [show List.map Placement.word [{ word := w, cells := cells }] = [w] from rfl]
        rw [List.append_assoc]
        rfl
      · rw [h3, hf]

/-! ### The backfill scan -/

theorem alphabetList_length : alphabetList.length = 26 := rfl

theorem randInt_toNat_lt {r n : ℕ} (hn : 0 < n) : (randInt r (n : ℤ)).toNat < n := by
  unfold randInt
  have hn' : (0 : ℤ) < (n : ℤ) := by exact_mod_cast hn
  rw [if_pos hn']
  have h1 : (0 : ℤ) ≤ (r : ℤ) % (n : ℤ) := Int.emod_nonneg _ (by omega)
  have h2 : (r : ℤ) % (n : ℤ) < (n : ℤ) := Int.emod_lt_of_pos _ hn'
  omega

/-- The backfill never touches an occupied cell. -/
theorem fillCells_mono (rand : ℕ → ℕ) :
    ∀ (l : List (ℤ × ℤ)) (g : ℤ → ℤ → Option Char) (k : ℕ) {x' y' : ℤ} {c : Char},
      g y' x' = some c → (fillCells rand l g k).1 y' x' = some c := by
  intro l
  induction l with
  | nil =>
    intro g k x' y' c h
    exact h
  | cons p rest ih =>
    intro g k x' y' c h
    cases hg : g p.2 p.1 with
    | none =>
      have hred : fillCells rand (p :: rest) g k =
          fillCells rand rest
            (writeCell g p.1 p.2
              (alphabetList.getD (randInt (rand k) (alphabetList.length : ℤ)).toNat ' '))
            (k + 1) := by
        simp only [fillCells, hg]
      rw [hred]
      apply ih
      unfold writeCell
      by_cases hc : (y' = p.2 ∧ x' = p.1)
      · exfalso
        rw [hc.1, hc.2] at h
        rw [h] at hg
        cases hg
      · rw [if_neg hc]
        exact h
    | some a =>
      have hred : fillCells rand (p :: rest) g k = fillCells rand rest g k := by
        simp only [fillCells, hg]
      rw [hred]
      exact ih g k h

/-- After the backfill scan, every scanned cell is occupied. -/
theorem fillCells_isSome (rand : ℕ → ℕ) :
    ∀ (l : List (ℤ × ℤ)) (g : ℤ → ℤ → Option Char) (k : ℕ),
      ∀ p ∈ l, ((fillCells rand l g k).1 p.2 p.1).isSome := by
  intro l
  induction l with
  | nil =>
    intro g k p hp
    exact absurd hp (List.not_mem_nil p)
  | cons q rest ih =>
    intro g k p hp
    rcases List.mem_cons.mp hp with hpq | hpr
    · subst hpq
      cases hg : g p.2 p.1 with
      | none =>
        have hred : fillCells rand (p :: rest) g k =
            fillCells rand rest
              (writeCell g p.1 p.2
                (alphabetList.getD (randInt (rand k) (alphabetList.length : ℤ)).toNat ' '))
              (k + 1) := by
          simp only [fillCells, hg]
        rw [hred]
        have hw : (writeCell g p.1 p.2
            (alphabetList.getD (randInt (rand k) (alphabetList.length : ℤ)).toNat ' ')) p.2 p.1 =
            some (alphabetList.getD (randInt (rand k) (alphabetList.length : ℤ)).toNat ' ') := by
          unfold writeCell
          rw [if_pos ⟨rfl, rfl⟩]
        rw [fillCells_mono rand rest _ (k + 1) hw]
        rfl
      | some a =>
        have hred : fillCells rand (p :: rest) g k = fillCells rand rest g k := by
          simp only [fillCells, hg]
        rw [hred]
        rw [fillCells_mono rand rest g k hg]
        rfl
    · cases hg : g q.2 q.1 with
      | none =>
        have hred : fillCells rand (q :: rest) g k =
            fillCells rand rest
              (writeCell g q.1 q.2
                (alphabetList.getD (randInt (rand k) (alphabetList.length : ℤ)).toNat ' '))
              (k + 1) := by
          simp only [fillCells, hg]
        rw [hred]
        exact ih _ _ p hpr
      | some a =>
        have hred : fillCells rand (q :: rest) g k = fillCells rand rest g k := by
          simp only [fillCells, hg]
        rw [hred]
        exact ih _ _ p hpr

/-- Every letter the backfill writes comes from the 26-letter alphabet;
letters already present are kept unchanged. -/
theorem fillCells_letters (rand : ℕ → ℕ) :
    ∀ (l : List (ℤ × ℤ)) (g : ℤ → ℤ → Option Char) (k : ℕ) {x' y' : ℤ} {c : Char},
      (fillCells rand l g k).1 y' x' = some c → g y' x' = some c ∨ c ∈ alphabetList := by
  intro l
  induction l with
  | nil =>
    intro g k x' y' c h
    exact Or.inl h
  | cons p rest ih =>
    intro g k x' y' c h
    cases hg : g p.2 p.1 with
    | none =>
      have hred : fillCells rand (p :: rest) g k =
          fillCells rand rest
            (writeCell g p.1 p.2
              (alphabetList.getD (randInt (rand k) (alphabetList.length : ℤ)).toNat ' '))
            (k + 1) := by
        simp only [fillCells, hg]
      rw [hred] at h
      rcases ih _ _ h with hw | hmem
      · unfold writeCell at hw
        by_cases hc : (y' = p.2 ∧ x' = p.1)
        · rw [if_pos hc] at hw
          have hcv : c = alphabetList.getD (randInt (rand k) (alphabetList.length : ℤ)).toNat ' ' :=
            (Option.some.inj hw).symm
          right
          rw [hcv]
          apply getD_mem_of_lt
          rw [alphabetList_length] at *
          exact randInt_toNat_lt (by omega)
        · rw [if_neg hc] at hw
          exact Or.inl hw
      · exact Or.inr hmem
    | some a =>
      have hred : fillCells rand (p :: rest) g k = fillCells rand rest g k := by
        simp only [fillCells, hg]
      rw [hred] at h
      exact ih _ _ h

/-- The backfill scan order visits every in-bounds cell. -/
theorem mem_cellOrder {size : ℕ} {x y : ℤ} (h : inB size x y) :
    (x, y) ∈ cellOrder size := by
  obtain ⟨h1, h2, h3, h4⟩ := h
  unfold cellOrder
  rw [List.mem_flatten]
  refine ⟨rowCells size y.toNat, ?_, ?_⟩
  · apply List.mem_map.mpr
    exact ⟨y.toNat, List.mem_range.mpr (show y.toNat < size by omega), rfl⟩
  · unfold rowCells
    apply List.mem_map.mpr
    refine ⟨x.toNat, List.mem_range.mpr (show x.toNat < size by omega), ?_⟩
    rw [Prod.ext_iff]
    constructor
    · simp only
      omega
    · simp only
      omega

/-! ### The stable sort -/

theorem insertByLen_perm (w : List Char) (l : List (List Char)) :
    List.Perm (insertByLen w l) (w :: l) := by
  induction l with
  | nil => exact List.Perm.refl _
  | cons v vs ih =>
    unfold insertByLen
    by_cases h : v.length ≤ w.length
    · rw [if_pos h]
    · rw [if_neg h]
      exact (List.Perm.cons v ih).trans (List.Perm.swap w v vs)

theorem sortByLenDesc_perm (l : List (List Char)) :
    List.Perm (sortByLenDesc l) l := by
  induction l with
  | nil => exact List.Perm.refl _
  | cons w ws ih =>
    exact (insertByLen_perm w (sortByLenDesc ws)).trans (List.Perm.cons w ih)

theorem insertByLen_pairwise {w : List Char} {l : List (List Char)}
    (h : l.Pairwise (fun a b => b.length ≤ a.length)) :
    (insertByLen w l).Pairwise (fun a b => b.length ≤ a.length) := by
  induction l with
  | nil => simp [insertByLen]
  | cons v vs ih =>
    unfold insertByLen
    rw [List.pairwise_cons] at h
    by_cases hle : v.length ≤ w.length
    · rw [if_pos hle]
      rw [List.pairwise_cons]
      refine ⟨?_, List.pairwise_cons.mpr h⟩
      intro u hu
      rcases List.mem_cons.mp hu with hv | hvs
      · rw [hv]
        exact hle
      · exact le_trans (h.1 u hvs) hle
    · rw [if_neg hle]
      rw [List.pairwise_cons]
      refine ⟨?_, ih h.2⟩
      intro u hu
      have := (insertByLen_perm w vs).mem_iff.mp hu
      rcases List.mem_cons.mp this with hw | hvs
      · rw [hw]
        omega
      · exact h.1 u hvs

theorem sortByLenDesc_pairwise (l : List (List Char)) :
    (sortByLenDesc l).Pairwise (fun a b => b.length ≤ a.length) := by
  induction l with
  | nil => simp [sortByLenDesc]
  | cons w ws ih => exact insertByLen_pairwise ih

theorem insertByLen_filter (w : List Char) (l : List (List Char)) (n : ℕ) :
    (insertByLen w l).filter (fun v => v.length == n) =
      if w.length = n then w :: l.filter (fun v => v.length == n)
      else l.filter (fun v => v.length == n) := by
  induction l with
  | nil =>
    by_cases hw : w.length = n <;> simp [insertByLen, hw]
  | cons v vs ih =>
    unfold insertByLen
    by_cases hle : v.length ≤ w.length
    · rw [if_pos hle]
      by_cases hw : w.length = n <;> simp [List.filter_cons, hw]
    · rw [if_neg hle]
      by_cases hw : w.length = n <;> by_cases hv : v.length = n
      · omega
      · rw [if_pos hw]
        rw [List.filter_cons, if_neg (by simpa using hv), List.filter_cons,
          if_neg (by simpa using hv), ih, if_pos hw]
      · rw [if_neg hw]
        rw [List.filter_cons, if_pos (by simpa using hv), List.filter_cons,
          if_pos (by simpa using hv), ih, if_neg hw]
      · rw [if_neg hw]
        rw [List.filter_cons, if_neg (by simpa using hv), List.filter_cons,
          if_neg (by simpa using hv), ih, if_neg hw]

/-- Stability of the sort: the words of any fixed length appear in the
sorted list exactly as they appear in the input. -/
theorem sortByLenDesc_filter (l : List (List Char)) (n : ℕ) :
    (sortByLenDesc l).filter (fun v => v.length == n) =
      l.filter (fun v => v.length == n) := by
  induction l with
  | nil => rfl
  | cons w ws ih =>
    show (insertByLen w (sortByLenDesc ws)).filter (fun v => v.length == n) = _
    rw [insertByLen_filter, List.filter_cons]
    by_cases hw : w.length = n
    · rw [if_pos hw, if_pos (by simpa using hw), ih]
    · rw [if_neg hw, if_neg (by simpa using hw), ih]

/-! ### Assembling the run -/

theorem generateWordsearch_placements (rand : ℕ → ℕ) (words : List (List Char))
    (size : ℕ) (diag : Bool) :
    (generateWordsearch rand words size diag).placements =
      (placeLoop rand size (dirsFor diag) (sortByLenDesc words) 0 initState 0).1.placements := rfl

theorem generateWordsearch_failed (rand : ℕ → ℕ) (words : List (List Char))
    (size : ℕ) (diag : Bool) :
    (generateWordsearch rand words size diag).failed =
      (placeLoop rand size (dirsFor diag) (sortByLenDesc words) 0 initState 0).1.failed := rfl

theorem generateWordsearch_mark (rand : ℕ → ℕ) (words : List (List Char))
    (size : ℕ) (diag : Bool) :
    (generateWordsearch rand words size diag).mark =
      (placeLoop rand size (dirsFor diag) (sortByLenDesc words) 0 initState 0).1.mark := rfl

theorem generateWordsearch_grid (rand : ℕ → ℕ) (words : List (List Char))
    (size : ℕ) (diag : Bool) :
    (generateWordsearch rand words size diag).grid =
      (fillCells rand (cellOrder size)
        (placeLoop rand size (dirsFor diag) (sortByLenDesc words) 0 initState 0).1.grid
        (placeLoop rand size (dirsFor diag) (sortByLenDesc words) 0 initState 0).2).1 := rfl

/-- The run invariant holds at the end of the placement phase. -/
theorem generateWordsearch_inv (rand : ℕ → ℕ) (words : List (List Char))
    (size : ℕ) (diag : Bool) (hnd : words.Nodup) :
    Inv size (dirsFor diag)
      (placeLoop rand size (dirsFor diag) (sortByLenDesc words) 0 initState 0).1 := by
  apply placeLoop_inv dirsFor_unit (dirsFor_length_pos diag) rand _ 0 _ 0 (inv_init _ _)
  show ((initState.placements.map Placement.word) ++ sortByLenDesc words).Nodup
  simp only [initState, List.map_nil, List.nil_append]
  exact ((sortByLenDesc_perm words).nodup_iff).mpr hnd

theorem generateWordsearch_sublists (rand : ℕ → ℕ) (words : List (List Char))
    (size : ℕ) (diag : Bool) :
    ((generateWordsearch rand words size diag).placements.map Placement.word).Sublist
      (sortByLenDesc words) ∧
    ((generateWordsearch rand words size diag).failed).Sublist (sortByLenDesc words) := by
  obtain ⟨l, l', h1, h2, h3, h4⟩ := placeLoop_sublist rand size (dirsFor diag)
    (dirsFor_length_pos diag) (sortByLenDesc words) 0 initState 0
  constructor
  · rw [generateWordsearch_placements, h1]
    exact h2
  · rw [generateWordsearch_failed, h3]
    exact h4

theorem placement_word_mem {rand : ℕ → ℕ} {words : List (List Char)}
    {size : ℕ} {diag : Bool} {pl : Placement}
    (h : pl ∈ (generateWordsearch rand words size diag).placements) :
    pl.word ∈ words := by
  have hsub := (generateWordsearch_sublists rand words size diag).1
  have hmem : pl.word ∈ (generateWordsearch rand words size diag).placements.map Placement.word :=
    List.mem_map.mpr ⟨pl, h, rfl⟩
  exact (sortByLenDesc_perm words).mem_iff.mp (hsub.subset hmem)

/-! ### The claims -/

/-- C1 — Partition: for every input satisfying the precondition and
every random sequence, the words of `placements` together with `failed`
are a permutation of the input words, so each input word occurs exactly
once across the two lists and nothing else occurs at all. -/
theorem partition_placements_failed (rand : ℕ → ℕ) (words : List (List Char))
    (size : ℕ) (diag : Bool) (hpre : validWords words size) :
    List.Perm
      ((generateWordsearch rand words size diag).placements.map Placement.word ++
        (generateWordsearch rand words size diag).failed)
      words ∧
    ((generateWordsearch rand words size diag).placements.map Placement.word ++
      (generateWordsearch rand words size diag).failed).Nodup ∧
    (∀ w : List Char,
      w ∈ (generateWordsearch rand words size diag).placements.map Placement.word ++
        (generateWordsearch rand words size diag).failed ↔ w ∈ words) := by
  have hperm0 := placeLoop_perm rand size (dirsFor diag) (dirsFor_length_pos diag)
    (sortByLenDesc words) 0 initState 0
  have hperm : List.Perm
      ((generateWordsearch rand words size diag).placements.map Placement.word ++
        (generateWordsearch rand words size diag).failed) words := by
    rw [generateWordsearch_placements, generateWordsearch_failed]
    exact hperm0.trans (sortByLenDesc_perm words)
  refine ⟨hperm, hperm.nodup_iff.mpr hpre.2.1, fun w => hperm.mem_iff⟩

/-- C6 — Order: the engine attempts the words in the order of the
stable descending-length sort `sortByLenDesc words`: that order is
non-increasing in length and preserves the input's relative order of
equal-length words, and both output lists are subsequences of it, so
their lengths are non-increasing and their equal-length words keep the
input's relative order. -/
theorem descending_stable_order (rand : ℕ → ℕ) (words : List (List Char))
    (size : ℕ) (diag : Bool) :
    (sortByLenDesc words).Pairwise (fun a b => b.length ≤ a.length) ∧
    (∀ n, (sortByLenDesc words).filter (fun v => v.length == n) =
      words.filter (fun v => v.length == n)) ∧
    List.Perm (sortByLenDesc words) words ∧
    ((generateWordsearch rand words size diag).placements.map Placement.word).Sublist
      (sortByLenDesc words) ∧
    ((generateWordsearch rand words size diag).failed).Sublist (sortByLenDesc words) ∧
    ((generateWordsearch rand words size diag).placements.map Placement.word).Pairwise
      (fun a b => b.length ≤ a.length) ∧
    ((generateWordsearch rand words size diag).failed).Pairwise
      (fun a b => b.length ≤ a.length) ∧
    (∀ n, (((generateWordsearch rand words size diag).placements.map Placement.word).filter
        (fun v => v.length == n)).Sublist (words.filter (fun v => v.length == n))) ∧
    (∀ n, (((generateWordsearch rand words size diag).failed).filter
        (fun v => v.length == n)).Sublist (words.filter (fun v => v.length == n))) := by
  obtain ⟨hsub1, hsub2⟩ := generateWordsearch_sublists rand words size diag
  refine ⟨sortByLenDesc_pairwise words, sortByLenDesc_filter words, sortByLenDesc_perm words,
    hsub1, hsub2, ?_, ?_, ?_, ?_⟩
  · exact (sortByLenDesc_pairwise words).sublist hsub1
  · exact (sortByLenDesc_pairwise words).sublist hsub2
  · intro n
    rw [← sortByLenDesc_filter words n]
    exact hsub1.filter _
  · intro n
    rw [← sortByLenDesc_filter words n]
    exact hsub2.filter _

/-- C5 — Mask: for every precondition-satisfying run and every cell,
the solution mask is true exactly at the cells that belong to the
coordinate list of at least one entry of `placements`. -/
theorem mask_iff_some_placement (rand : ℕ → ℕ) (words : List (List Char))
    (size : ℕ) (diag : Bool) (hpre : validWords words size) :
    ∀ x y : ℤ, (generateWordsearch rand words size diag).mark y x = true ↔
      ∃ pl ∈ (generateWordsearch rand words size diag).placements, (x, y) ∈ pl.cells := by
  have inv := generateWordsearch_inv rand words size diag hpre.2.1
  intro x y
  rw [generateWordsearch_mark, generateWordsearch_placements]
  exact inv.markCov x y

/-- C4 — Coverage: for every precondition-satisfying run, every cell of
the size×size grid holds exactly one letter, an uppercase A–Z letter:
the letters of placements come from the (uppercase) input words and all
remaining cells are backfilled from the 26-letter alphabet. -/
theorem grid_fully_populated (rand : ℕ → ℕ) (words : List (List Char))
    (size : ℕ) (diag : Bool) (hpre : validWords words size) :
    ∀ x y : ℤ, inB size x y →
      ∃ c : Char, (generateWordsearch rand words size diag).grid y x = some c ∧
        c ∈ alphabetList := by
  have inv := generateWordsearch_inv rand words size diag hpre.2.1
  intro x y hin
  have hsome : ((generateWordsearch rand words size diag).grid y x).isSome := by
    rw [generateWordsearch_grid]
    exact fillCells_isSome rand (cellOrder size) _ _ (x, y) (mem_cellOrder hin)
  obtain ⟨c, hc⟩ := Option.isSome_iff_exists.mp hsome
  refine ⟨c, hc, ?_⟩
  rw [generateWordsearch_grid] at hc
  rcases fillCells_letters rand (cellOrder size) _ _ hc with hold | hmem
  · obtain ⟨pl, hpl, hcw⟩ := inv.letters x y c hold
    have hplm : pl ∈ (generateWordsearch rand words size diag).placements := by
      rw [generateWordsearch_placements]
      exact hpl
    have hwmem : pl.word ∈ words := placement_word_mem hplm
    exact (hpre.2.2 pl.word hwmem).2.2 c hcw
  · exact hmem

/-- C9 — Spelling: every returned placement occupies exactly one cell
per letter, its cells form a straight line along one of the run's unit
directions, and the final grid (after backfill) still holds the word's
letters at those cells: the backfill never overwrites a placed cell and
later placements only rewrite identical letters. -/
theorem placements_spell_in_final_grid (rand : ℕ → ℕ) (words : List (List Char))
    (size : ℕ) (diag : Bool) (hpre : validWords words size) :
    ∀ pl ∈ (generateWordsearch rand words size diag).placements,
      pl.cells.length = pl.word.length ∧
      (∃ x y dx dy, (dx, dy) ∈ dirsFor diag ∧
        pl.cells = lineCells x y dx dy pl.word.length) ∧
      ∀ i < pl.word.length,
        (generateWordsearch rand words size diag).grid
            (pl.cells.getD i (0, 0)).2 (pl.cells.getD i (0, 0)).1 =
          some (pl.word.getD i ' ') := by
  have inv := generateWordsearch_inv rand words size diag hpre.2.1
  intro pl hpl
  rw [generateWordsearch_placements] at hpl
  obtain ⟨x, y, dx, dy, hdir, hcells, hvals⟩ := inv.spell pl hpl
  refine ⟨by rw [hcells, lineCells_length], ⟨x, y, dx, dy, hdir, hcells⟩, ?_⟩
  intro i hi
  rw [generateWordsearch_grid, hcells, lineCells_getD hi]
  exact fillCells_mono rand (cellOrder size) _ _ ((hvals i hi).2)

/-- C3 — No illegal overlap: whenever two returned placements share a
cell, their words carry the same letter at that cell; and in general a
feasible trial (`canPlace` true) writes onto an occupied cell only when
the occupying letter equals the word's letter there. -/
theorem overlap_letters_match (rand : ℕ → ℕ) (words : List (List Char))
    (size : ℕ) (diag : Bool) (hpre : validWords words size) :
    (∀ p ∈ (generateWordsearch rand words size diag).placements,
      ∀ q ∈ (generateWordsearch rand words size diag).placements,
      ∀ i j : ℕ, i < p.word.length → j < q.word.length →
        p.cells.getD i (0, 0) = q.cells.getD j (0, 0) →
        p.word.getD i ' ' = q.word.getD j ' ') ∧
    (∀ (g : ℤ → ℤ → Option Char) (word : List Char) (x y dx dy : ℤ),
      canPlace size g word x y dx dy = true →
      ∀ i < word.length, ∀ c : Char,
        g (y + dy * (i : ℤ)) (x + dx * (i : ℤ)) = some c → c = word.getD i ' ') := by
  have inv := generateWordsearch_inv rand words size diag hpre.2.1
  constructor
  · intro p hp q hq i j hi hj hcell
    rw [generateWordsearch_placements] at hp hq
    obtain ⟨xp, yp, dxp, dyp, _, hcp, hvp⟩ := inv.spell p hp
    obtain ⟨xq, yq, dxq, dyq, _, hcq, hvq⟩ := inv.spell q hq
    rw [hcp, lineCells_getD hi, hcq, lineCells_getD hj, Prod.ext_iff] at hcell
    obtain ⟨hx, hy⟩ := hcell
    simp only at hx hy
    have h1 := (hvp i hi).2
    have h2 := (hvq j hj).2
    rw [hx, hy] at h1
    rw [h1] at h2
    exact Option.some.inj h2
  · intro g word x y dx dy hcan i hi c hc
    exact (canPlace_spec hcan hi).2.1 c hc

/-- C2 (amended) — Spacing by reconstruction: in a returned result, a
cell belonging to exactly one placement is never 8-adjacent to a cell
belonging to exactly one *other* placement.  (The claim's version,
which only excludes the two words being compared when deciding whether
a cell is an overlap cell, fails: a short word may be committed
entirely on top of a longer word's letters, see the counterexample.) -/
theorem exclusive_cells_not_adjacent (rand : ℕ → ℕ) (words : List (List Char))
    (size : ℕ) (diag : Bool) (hpre : validWords words size) :
    ∀ p ∈ (generateWordsearch rand words size diag).placements,
    ∀ q ∈ (generateWordsearch rand words size diag).placements, p ≠ q →
    ∀ c, exclusiveTo (generateWordsearch rand words size diag).placements p c →
    ∀ c', exclusiveTo (generateWordsearch rand words size diag).placements q c' →
      ¬ adjacentCell c c' := by
  have inv := generateWordsearch_inv rand words size diag hpre.2.1
  intro p hp q hq hpq c hc c' hc'
  rw [generateWordsearch_placements] at hp hq hc hc'
  exact inv.spacing p hp q hq hpq c hc c' hc'

/-- If every trial of a word is infeasible, the trial loop leaves the
state untouched apart from the final `failed` push, consuming three
random draws per trial. -/
theorem attemptWord_all_fail (rand : ℕ → ℕ) (size : ℕ) (dirs : List (ℤ × ℤ))
    (word : List Char) (wi : ℕ) (st : GenState)
    (h : ∀ k, canPlace size st.grid word
      (trialStart rand size dirs word.length k).2.1
      (trialStart rand size dirs word.length k).2.2
      (trialStart rand size dirs word.length k).1.1
      (trialStart rand size dirs word.length k).1.2 = false) :
    ∀ (fuel k : ℕ), attemptWord rand size dirs word wi fuel st k =
      ({ st with failed := st.failed ++ [word] }, k + 3 * fuel) := by
  intro fuel
  induction fuel with
  | zero =>
    intro k
    rw [show attemptWord rand size dirs word wi 0 st k =
      ({ st with failed := st.failed ++ [word] }, k) from rfl]
    rw [Nat.mul_zero, Nat.add_zero]
  | succ fuel ih =>
    intro k
    rw [show attemptWord rand size dirs word wi (fuel + 1) st k =
      (if canPlace size st.grid word (trialStart rand size dirs word.length k).2.1
          (trialStart rand size dirs word.length k).2.2
          (trialStart rand size dirs word.length k).1.1
          (trialStart rand size dirs word.length k).1.2 then
        (doPlace word (trialStart rand size dirs word.length k).2.1
          (trialStart rand size dirs word.length k).2.2
          (trialStart rand size dirs word.length k).1.1
          (trialStart rand size dirs word.length k).1.2 wi st, k + 3)
      else attemptWord rand size dirs word wi fuel st (k + 3)) from rfl]
    rw [if_neg (by rw [h k]; exact Bool.false_ne_true)]
    rw [ih (k + 3)]
    refine congrArg _ ?_
    omega

/-- C7 — Overlong word: with `size = 5` and the ten-letter word
`AAAAAAAAAA`, every cell-by-cell feasibility check fails on a bounds
check before any grid access (the check short-circuits to `false` for
every direction and start, including the negative starts produced by
`randInt` on an empty range), so for every random sequence the word is
reported in `failed`, nothing is placed, and the engine returns
normally — the embedding is total, so no abort can occur. -/
theorem overlong_word_never_placed (rand : ℕ → ℕ) (diag : Bool) :
    (∀ (g : ℤ → ℤ → Option Char) (x y dx dy : ℤ), (dx, dy) ∈ dirsFor diag →
      canPlace 5 g ("AAAAAAAAAA".toList) x y dx dy = false) ∧
    (generateWordsearch rand ["AAAAAAAAAA".toList] 5 diag).placements = [] ∧
    (generateWordsearch rand ["AAAAAAAAAA".toList] 5 diag).failed =
      ["AAAAAAAAAA".toList] := by
  have hinfeasible : ∀ (g : ℤ → ℤ → Option Char) (x y dx dy : ℤ),
      (dx, dy) ∈ dirsFor diag → canPlace 5 g ("AAAAAAAAAA".toList) x y dx dy = false := by
    intro g x y dx dy hdir
    have hud := dirsFor_unit (dx, dy) hdir
    rw [← Bool.not_eq_true]
    intro hcan
    have h0 := (canPlace_spec hcan (show 0 < ("AAAAAAAAAA".toList).length from by decide)).1
    have h9 := (canPlace_spec hcan (show 9 < ("AAAAAAAAAA".toList).length from by decide)).1
    obtain ⟨a0, a1, a2, a3⟩ := h0
    obtain ⟨b0, b1, b2, b3⟩ := h9
    obtain ⟨hne, hdx, hdy⟩ := hud
    simp only at hne hdx hdy
    have hxv : dx = -1 ∨ dx = 0 ∨ dx = 1 := by omega
    have hyv : dy = -1 ∨ dy = 0 ∨ dy = 1 := by omega
    simp only [Nat.cast_zero, Nat.cast_ofNat, mul_zero, add_zero] at a0 a1 a2 a3 b0 b1 b2 b3
    rcases hxv with h | h | h <;> rcases hyv with h' | h' | h' <;> subst h <;> subst h' <;>
      omega
  refine ⟨hinfeasible, ?_, ?_⟩
  · rw [generateWordsearch_placements]
    rw [show sortByLenDesc ["AAAAAAAAAA".toList] = ["AAAAAAAAAA".toList] from rfl]
    rw [placeLoop_cons]
    rw [attemptWord_all_fail rand 5 (dirsFor diag) _ 0 initState (fun k => by
      apply hinfeasible
      have hmem : (trialStart rand 5 (dirsFor diag) ("AAAAAAAAAA".toList).length k).1 ∈
          dirsFor diag := by
        rw [trialStart_dir]
        exact choice_mem _ _ _ (dirsFor_length_pos diag)
      exact Prod.mk.eta.symm ▸ hmem) 2000 0]
    rfl
  · rw [generateWordsearch_failed]
    rw [show sortByLenDesc ["AAAAAAAAAA".toList] = ["AAAAAAAAAA".toList] from rfl]
    rw [placeLoop_cons]
    rw [attemptWord_all_fail rand 5 (dirsFor diag) _ 0 initState (fun k => by
      apply hinfeasible
      have hmem : (trialStart rand 5 (dirsFor diag) ("AAAAAAAAAA".toList).length k).1 ∈
          dirsFor diag := by
        rw [trialStart_dir]
        exact choice_mem _ _ _ (dirsFor_length_pos diag)
      exact Prod.mk.eta.symm ▸ hmem) 2000 0]
    rfl

/-- C10 — Frame: a word that fails every trial leaves the grid, mask,
owner map, and placements exactly as they were, with only the `failed`
push; a placed word leaves `failed` untouched.  The sort operates on a
working copy — in this pure embedding `sortByLenDesc words` is a fresh
permutation of the caller's list, which itself is never modified. -/
theorem failed_word_leaves_state_unchanged :
    (∀ (rand : ℕ → ℕ) (size : ℕ) (dirs : List (ℤ × ℤ)), 0 < dirs.length →
      ∀ (word : List Char) (wi fuel : ℕ) (st : GenState) (k : ℕ),
        ((attemptWord rand size dirs word wi fuel st k).1.grid = st.grid ∧
          (attemptWord rand size dirs word wi fuel st k).1.mark = st.mark ∧
          (attemptWord rand size dirs word wi fuel st k).1.owner = st.owner ∧
          (attemptWord rand size dirs word wi fuel st k).1.placements = st.placements ∧
          (attemptWord rand size dirs word wi fuel st k).1.failed = st.failed ++ [word]) ∨
        ((attemptWord rand size dirs word wi fuel st k).1.failed = st.failed ∧
          ∃ x y dx dy, (dx, dy) ∈ dirs ∧ canPlace size st.grid word x y dx dy = true ∧
            (attemptWord rand size dirs word wi fuel st k).1 = doPlace word x y dx dy wi st)) ∧
    (∀ words : List (List Char), List.Perm (sortByLenDesc words) words) := by
  constructor
  · intro rand size dirs hlen word wi fuel st k
    rcases attemptWord_cases rand size dirs word wi hlen fuel st k with h | ⟨x, y, dx, dy, hdir, hcan, h⟩
    · left
      rw [h]
      exact ⟨rfl, rfl, rfl, rfl, rfl⟩
    · right
      exact ⟨by rw [h, doPlace_failed], x, y, dx, dy, hdir, hcan, h⟩
  · exact sortByLenDesc_perm

/-! ### Concrete runs: counterexamples and witnesses -/

set_option maxRecDepth 100000 in
/-- C2 counterexample — the reconstruction test as the claim states it
fails on a precondition-satisfying input: with words `ABCD`, `AB`, `CD`
on a 10×10 grid and a random sequence that lays `AB` and `CD` entirely
on top of `ABCD`, the placements of `AB` and `CD` are distinct, the
cell (1,0) belongs to `AB` but not `CD`, the cell (2,0) belongs to `CD`
but not `AB`, and the two cells are 8-adjacent. -/
theorem spacing_pairwise_counterexample :
    validWords ["ABCD".toList, "AB".toList, "CD".toList] 10 ∧
    (∃ p ∈ (generateWordsearch (fun k => if k = 7 then 2 else 0)
        ["ABCD".toList, "AB".toList, "CD".toList] 10 false).placements,
      ∃ q ∈ (generateWordsearch (fun k => if k = 7 then 2 else 0)
        ["ABCD".toList, "AB".toList, "CD".toList] 10 false).placements,
      p ≠ q ∧ ∃ c ∈ p.cells, c ∉ q.cells ∧
        ∃ c' ∈ q.cells, c' ∉ p.cells ∧ adjacentCell c c') := by
  constructor
  · decide
  · decide

set_option maxRecDepth 100000 in
/-- Witness for C2 (amended): in a run placing `CAT` at row 0 and `DOG`
at row 5, the two placements are distinct, (0,0) is exclusive to `CAT`,
(0,5) is exclusive to `DOG`, and the two cells are not 8-adjacent. -/
theorem exclusive_cells_not_adjacent_witness :
    validWords ["CAT".toList, "DOG".toList] 10 ∧
    ({ word := "CAT".toList, cells := [((0 : ℤ), (0 : ℤ)), (1, 0), (2, 0)] } : Placement) ∈
      (generateWordsearch (fun k => if k = 5 then 5 else 0)
        ["CAT".toList, "DOG".toList] 10 false).placements ∧
    ({ word := "DOG".toList, cells := [((0 : ℤ), (5 : ℤ)), (1, 5), (2, 5)] } : Placement) ∈
      (generateWordsearch (fun k => if k = 5 then 5 else 0)
        ["CAT".toList, "DOG".toList] 10 false).placements ∧
    ({ word := "CAT".toList, cells := [((0 : ℤ), (0 : ℤ)), (1, 0), (2, 0)] } : Placement) ≠
      { word := "DOG".toList, cells := [((0 : ℤ), (5 : ℤ)), (1, 5), (2, 5)] } ∧
    exclusiveTo (generateWordsearch (fun k => if k = 5 then 5 else 0)
        ["CAT".toList, "DOG".toList] 10 false).placements
      { word := "CAT".toList, cells := [((0 : ℤ), (0 : ℤ)), (1, 0), (2, 0)] } (0, 0) ∧
    exclusiveTo (generateWordsearch (fun k => if k = 5 then 5 else 0)
        ["CAT".toList, "DOG".toList] 10 false).placements
      { word := "DOG".toList, cells := [((0 : ℤ), (5 : ℤ)), (1, 5), (2, 5)] } (0, 5) ∧
    ¬ adjacentCell (0, 0) (0, 5) :=
  ⟨by decide, by decide, by decide, by decide, by decide, by decide,
    exclusive_cells_not_adjacent (fun k => if k = 5 then 5 else 0)
      ["CAT".toList, "DOG".toList] 10 false (by decide)
      { word := "CAT".toList, cells := [((0 : ℤ), (0 : ℤ)), (1, 0), (2, 0)] } (by decide)
      { word := "DOG".toList, cells := [((0 : ℤ), (5 : ℤ)), (1, 5), (2, 5)] } (by decide)
      (by decide) (0, 0) (by decide) (0, 5) (by decide)⟩

/-- Witness for C1 at a concrete precondition-satisfying input. -/
theorem partition_placements_failed_witness :
    validWords ["CAT".toList, "DOG".toList] 10 ∧
    List.Perm
      ((generateWordsearch (fun _ => 0) ["CAT".toList, "DOG".toList] 10 false).placements.map
          Placement.word ++
        (generateWordsearch (fun _ => 0) ["CAT".toList, "DOG".toList] 10 false).failed)
      ["CAT".toList, "DOG".toList] :=
  ⟨by decide,
    (partition_placements_failed (fun _ => 0) ["CAT".toList, "DOG".toList] 10 false
      (by decide)).1⟩

set_option maxRecDepth 100000 in
/-- Witness for C3: in the overlap run, `ABCD` and `AB` share the cell
(0,0) at letter index 0 of both, and both words carry the letter `A`
there. -/
theorem overlap_letters_match_witness :
    validWords ["ABCD".toList, "AB".toList, "CD".toList] 10 ∧
    ({ word := "ABCD".toList, cells := [((0 : ℤ), (0 : ℤ)), (1, 0), (2, 0), (3, 0)] } : Placement) ∈
      (generateWordsearch (fun k => if k = 7 then 2 else 0)
        ["ABCD".toList, "AB".toList, "CD".toList] 10 false).placements ∧
    ({ word := "AB".toList, cells := [((0 : ℤ), (0 : ℤ)), (1, 0)] } : Placement) ∈
      (generateWordsearch (fun k => if k = 7 then 2 else 0)
        ["ABCD".toList, "AB".toList, "CD".toList] 10 false).placements ∧
    (({ word := "ABCD".toList, cells := [((0 : ℤ), (0 : ℤ)), (1, 0), (2, 0), (3, 0)] } : Placement).word.getD 0 ' ' =
      ({ word := "AB".toList, cells := [((0 : ℤ), (0 : ℤ)), (1, 0)] } : Placement).word.getD 0 ' ') :=
  ⟨by decide, by decide, by decide,
    (overlap_letters_match (fun k => if k = 7 then 2 else 0)
      ["ABCD".toList, "AB".toList, "CD".toList] 10 false (by decide)).1
      { word := "ABCD".toList, cells := [((0 : ℤ), (0 : ℤ)), (1, 0), (2, 0), (3, 0)] } (by decide)
      { word := "AB".toList, cells := [((0 : ℤ), (0 : ℤ)), (1, 0)] } (by decide)
      0 0 (by decide) (by decide) (by decide)⟩

/-- Witness for C4 at a concrete cell of a concrete run. -/
theorem grid_fully_populated_witness :
    validWords ["CAT".toList] 10 ∧ inB 10 0 0 ∧
    ∃ c : Char, (generateWordsearch (fun _ => 0) ["CAT".toList] 10 false).grid 0 0 = some c ∧
      c ∈ alphabetList :=
  ⟨by decide, by decide,
    grid_fully_populated (fun _ => 0) ["CAT".toList] 10 false (by decide) 0 0 (by decide)⟩

/-- Witness for C5 at a concrete cell of a concrete run. -/
theorem mask_iff_some_placement_witness :
    validWords ["CAT".toList] 10 ∧
    ((generateWordsearch (fun _ => 0) ["CAT".toList] 10 false).mark 0 0 = true ↔
      ∃ pl ∈ (generateWordsearch (fun _ => 0) ["CAT".toList] 10 false).placements,
        ((0 : ℤ), (0 : ℤ)) ∈ pl.cells) :=
  ⟨by decide, mask_iff_some_placement (fun _ => 0) ["CAT".toList] 10 false (by decide) 0 0⟩

/-- Witness for C7: the ten-letter word is infeasible at the concrete
trial `(x, y) = (0, 0)`, direction `(1, 0)`, on the empty grid. -/
theorem overlong_word_never_placed_witness :
    ((1 : ℤ), (0 : ℤ)) ∈ dirsFor false ∧
    canPlace 5 (fun _ _ => none) ("AAAAAAAAAA".toList) 0 0 1 0 = false :=
  ⟨by decide,
    (overlong_word_never_placed (fun _ => 0) false).1 (fun _ _ => none) 0 0 1 0 (by decide)⟩

/-- Witness for C9: the first letter of the placed `CAT` is on the
final grid at the first cell of its placement. -/
theorem placements_spell_in_final_grid_witness :
    validWords ["CAT".toList] 10 ∧
    ({ word := "CAT".toList, cells := [((0 : ℤ), (0 : ℤ)), (1, 0), (2, 0)] } : Placement) ∈
      (generateWordsearch (fun _ => 0) ["CAT".toList] 10 false).placements ∧
    (0 < ({ word := "CAT".toList, cells := [((0 : ℤ), (0 : ℤ)), (1, 0), (2, 0)] } : Placement).word.length) ∧
    (generateWordsearch (fun _ => 0) ["CAT".toList] 10 false).grid
        (({ word := "CAT".toList, cells := [((0 : ℤ), (0 : ℤ)), (1, 0), (2, 0)] } : Placement).cells.getD 0 (0, 0)).2
        (({ word := "CAT".toList, cells := [((0 : ℤ), (0 : ℤ)), (1, 0), (2, 0)] } : Placement).cells.getD 0 (0, 0)).1 =
      some (({ word := "CAT".toList, cells := [((0 : ℤ), (0 : ℤ)), (1, 0), (2, 0)] } : Placement).word.getD 0 ' ') :=
  ⟨by decide, by decide, by decide,
    (placements_spell_in_final_grid (fun _ => 0) ["CAT".toList] 10 false (by decide)
      { word := "CAT".toList, cells := [((0 : ℤ), (0 : ℤ)), (1, 0), (2, 0)] }
      (by decide)).2.2 0 (by decide)⟩

/-- Witness for C10 at concrete arguments. -/
theorem failed_word_leaves_state_unchanged_witness :
    0 < (dirsFor false).length ∧
    (((attemptWord (fun _ => 0) 5 (dirsFor false) ("AB".toList) 0 0 initState 0).1.grid =
        initState.grid ∧
      (attemptWord (fun _ => 0) 5 (dirsFor false) ("AB".toList) 0 0 initState 0).1.mark =
        initState.mark ∧
      (attemptWord (fun _ => 0) 5 (dirsFor false) ("AB".toList) 0 0 initState 0).1.owner =
        initState.owner ∧
      (attemptWord (fun _ => 0) 5 (dirsFor false) ("AB".toList) 0 0 initState 0).1.placements =
        initState.placements ∧
      (attemptWord (fun _ => 0) 5 (dirsFor false) ("AB".toList) 0 0 initState 0).1.failed =
        initState.failed ++ ["AB".toList]) ∨
    ((attemptWord (fun _ => 0) 5 (dirsFor false) ("AB".toList) 0 0 initState 0).1.failed =
        initState.failed ∧
      ∃ x y dx dy, (dx, dy) ∈ dirsFor false ∧
        canPlace 5 initState.grid ("AB".toList) x y dx dy = true ∧
        (attemptWord (fun _ => 0) 5 (dirsFor false) ("AB".toList) 0 0 initState 0).1 =
          doPlace ("AB".toList) x y dx dy 0 initState)) :=
  ⟨by decide,
    failed_word_leaves_state_unchanged.1 (fun _ => 0) 5 (dirsFor false) (by decide)
      ("AB".toList) 0 0 initState 0⟩

set_option maxRecDepth 1000000 in
set_option maxHeartbeats 4000000 in
/-- C8 counterexample — the scenario does not hold for *every* random
sequence: under the constant-zero random stream, `CAT` is placed at
(0,0)–(2,0) and every one of `DOG`'s 2000 trials retries the same
blocked start (0,0), so `DOG` is reported in `failed` and the claimed
`failed = []` is false for this sequence. -/
theorem scenarioA_every_rand_counterexample :
    (generateWordsearch (fun _ => 0) ["CAT".toList, "DOG".toList] 10 false).failed =
      ["DOG".toList] ∧
    (generateWordsearch (fun _ => 0) ["CAT".toList, "DOG".toList] 10 false).placements.map
        Placement.word = ["CAT".toList] := by
  constructor
  · decide
  · decide

set_option maxRecDepth 100000 in
/-- C8 (amended) — there is a random sequence for which the scenario
holds: both words placed, `failed` empty, all 100 cells populated, and
the mask true on exactly 6 cells. -/
theorem scenarioA_exists_success :
    ∃ rand : ℕ → ℕ,
      (generateWordsearch rand ["CAT".toList, "DOG".toList] 10 false).failed = [] ∧
      (generateWordsearch rand ["CAT".toList, "DOG".toList] 10 false).placements.map
          Placement.word = ["CAT".toList, "DOG".toList] ∧
      (∀ x ∈ List.range 10, ∀ y ∈ List.range 10,
        ((generateWordsearch rand ["CAT".toList, "DOG".toList] 10 false).grid
          (y : ℤ) (x : ℤ)).isSome) ∧
      ((List.range 10).map (fun y =>
        ((List.range 10).filter (fun x =>
          (generateWordsearch rand ["CAT".toList, "DOG".toList] 10 false).mark
            (y : ℤ) (x : ℤ))).length)).sum = 6 := by
  refine ⟨fun k => if k = 5 then 5 else 0, ?_, ?_, ?_, ?_⟩
  · decide
  · decide
  · decide
  · decide

end Wordsearch
